import Mathlib

/-!
Verification of the mesh channel / mesh protobuf core.

The development shallowly embeds the code of `mesh_protobuf/src/lib.rs`,
`mesh_channel/src/lib.rs` and `inspect_proto/src/lib.rs`.  The wire-level
encoder engine (the `protobuf`, `encoding` and `table` modules), the
bidirectional `bidir::Channel`, and the prost-generated inspect messages
are declared but not present in the excerpt; those parts are modelled from
the specification, and each such definition is marked `Modelled from the
spec:` in its doc comment.  Machine integers are represented as `Nat`
(bytes are naturals below 256, varint payloads are unbounded naturals).
-/

namespace Mesh

/-! ## Wire codec (spec section 4.1)

Modelled from the spec: the wire codec module `mesh_protobuf::protobuf` is
not part of the excerpt.  Varints are little-endian base-128 with MSB
continuation; wire tags are `(field_number <<< 3) ||| wire_type`; wire
types 0 (varint), 1 (fixed64), 2 (length-delimited) and 5 (fixed32) are
accepted, anything else is `UnknownWireType`. -/

/-- Modelled from the spec: little-endian base-128 varint encoding with
MSB continuation bit. -/
def encodeVarint (n : Nat) : List Nat :=
  if n < 128 then [n]
  else (n % 128 + 128) :: encodeVarint (n / 128)
decreasing_by exact Nat.div_lt_self (by omega) (by omega)

/-- Modelled from the spec: varint decoding; returns the value and the
remaining bytes, or `none` on end of input. -/
def decodeVarint : List Nat → Option (Nat × List Nat)
  | [] => none
  | b :: rest =>
    if b < 128 then some (b, rest)
    else match decodeVarint rest with
      | some (m, r) => some (b - 128 + 128 * m, r)
      | none => none

theorem encodeVarint_ne_nil (n : Nat) : encodeVarint n ≠ [] := by
  unfold encodeVarint
  split <;> simp

/-- Decoding after encoding recovers the value and leaves trailing bytes. -/
theorem decodeVarint_encodeVarint (n : Nat) (rest : List Nat) :
    decodeVarint (encodeVarint n ++ rest) = some (n, rest) := by
  induction n using Nat.strong_induction_on with
  | _ n ih =>
    unfold encodeVarint
    by_cases h : n < 128
    · simp [h, decodeVarint]
    · have hdiv : n / 128 < n := Nat.div_lt_self (by omega) (by omega)
      simp only [if_neg h, List.cons_append, decodeVarint]
      have hmod : ¬ (n % 128 + 128 < 128) := by omega
      rw [if_neg hmod, ih (n / 128) hdiv]
      have : n % 128 + 128 - 128 + 128 * (n / 128) = n := by omega
      simp only [this]

/-- Decoding consumes at least one byte. -/
theorem decodeVarint_length {l rest : List Nat} {n : Nat}
    (h : decodeVarint l = some (n, rest)) : rest.length < l.length := by
  induction l generalizing n rest with
  | nil => simp [decodeVarint] at h
  | cons b bs ih =>
    simp only [decodeVarint] at h
    split at h
    · cases h
      simp
    · cases hrec : decodeVarint bs with
      | none => rw [hrec] at h; cases h
      | some p =>
        rw [hrec] at h
        cases p with
        | mk m r =>
          cases h
          have := ih hrec
          simp
          omega

/-- Decoding a prefix of a longer buffer gives the same value with the
extra bytes appended to the remainder. -/
theorem decodeVarint_append {l rest : List Nat} {n : Nat}
    (h : decodeVarint l = some (n, rest)) (tail : List Nat) :
    decodeVarint (l ++ tail) = some (n, rest ++ tail) := by
  induction l generalizing n rest with
  | nil => simp [decodeVarint] at h
  | cons b bs ih =>
    simp only [decodeVarint, List.cons_append] at h ⊢
    split at h
    · cases h
      simp_all
    · cases hrec : decodeVarint bs with
      | none => rw [hrec] at h; cases h
      | some p =>
        rw [hrec] at h
        cases p with
        | mk m r =>
          cases h
          rw [show decodeVarint (bs.append tail) = some (m, rest ++ tail) from ih hrec]
          simp_all

/-- Modelled from the spec: a parsed wire value, one of the protobuf wire
forms (varint, fixed64, length-delimited, fixed32). -/
inductive WireVal : Type where
  | varint (n : Nat)
  | fixed64 (bytes : List Nat)
  | lenDelim (payload : List Nat)
  | fixed32 (bytes : List Nat)
deriving DecidableEq, Repr

/-- Modelled from the spec: the encoded header of a field, the varint of
`(field_number <<< 3) ||| wire_type`. -/
def encTag (fieldNum wireType : Nat) : List Nat :=
  encodeVarint (fieldNum * 8 + wireType)

/-- Modelled from the spec: encoding of a varint-typed field. -/
def encVarintField (fieldNum value : Nat) : List Nat :=
  encTag fieldNum 0 ++ encodeVarint value

/-- Modelled from the spec: encoding of a length-delimited field (nested
message, string, bytes, or packed run). -/
def encLenField (fieldNum : Nat) (payload : List Nat) : List Nat :=
  encTag fieldNum 2 ++ encodeVarint payload.length ++ payload

/-- Modelled from the spec: parses one field (header plus wire value) off
the front of the buffer; fails on a truncated buffer or an unknown wire
type. -/
def parseField (l : List Nat) : Option ((Nat × WireVal) × List Nat) :=
  match decodeVarint l with
  | none => none
  | some (tag, r1) =>
    if tag % 8 = 0 then
      match decodeVarint r1 with
      | none => none
      | some (v, r2) => some ((tag / 8, WireVal.varint v), r2)
    else if tag % 8 = 1 then
      if 8 ≤ r1.length then some ((tag / 8, WireVal.fixed64 (r1.take 8)), r1.drop 8)
      else none
    else if tag % 8 = 2 then
      match decodeVarint r1 with
      | none => none
      | some (len, r2) =>
        if len ≤ r2.length then some ((tag / 8, WireVal.lenDelim (r2.take len)), r2.drop len)
        else none
    else if tag % 8 = 5 then
      if 4 ≤ r1.length then some ((tag / 8, WireVal.fixed32 (r1.take 4)), r1.drop 4)
      else none
    else none

/-- Parsing one field consumes at least one byte. -/
theorem parseField_length {l : List Nat} {t : Nat × WireVal} {r : List Nat}
    (h : parseField l = some (t, r)) : r.length < l.length := by
  unfold parseField at h
  cases htag : decodeVarint l with
  | none => rw [htag] at h; exact Option.noConfusion h
  | some p =>
    obtain ⟨tag, r1⟩ := p
    rw [htag] at h
    have h1 := decodeVarint_length htag
    dsimp only at h
    by_cases h0 : tag % 8 = 0
    · rw [if_pos h0] at h
      cases hval : decodeVarint r1 with
      | none => rw [hval] at h; exact Option.noConfusion h
      | some q =>
        obtain ⟨v, r2⟩ := q
        rw [hval] at h
        have h2 := decodeVarint_length hval
        cases h
        omega
    rw [if_neg h0] at h
    by_cases hw1 : tag % 8 = 1
    · rw [if_pos hw1] at h
      by_cases hlen : 8 ≤ r1.length
      · rw [if_pos hlen] at h
        cases h
        simp only [List.length_drop]
        omega
      · rw [if_neg hlen] at h
        exact Option.noConfusion h
    rw [if_neg hw1] at h
    by_cases hw2 : tag % 8 = 2
    · rw [if_pos hw2] at h
      cases hval : decodeVarint r1 with
      | none => rw [hval] at h; exact Option.noConfusion h
      | some q =>
        obtain ⟨len, r2⟩ := q
        rw [hval] at h
        dsimp only at h
        have h2 := decodeVarint_length hval
        by_cases hle : len ≤ r2.length
        · rw [if_pos hle] at h
          cases h
          simp only [List.length_drop]
          omega
        · rw [if_neg hle] at h
          exact Option.noConfusion h
    rw [if_neg hw2] at h
    by_cases hw5 : tag % 8 = 5
    · rw [if_pos hw5] at h
      by_cases hlen : 4 ≤ r1.length
      · rw [if_pos hlen] at h
        cases h
        simp only [List.length_drop]
        omega
      · rw [if_neg hlen] at h
        exact Option.noConfusion h
    rw [if_neg hw5] at h
    exact Option.noConfusion h

/-- Modelled from the spec: tokenizes a byte run into the sequence of
`(field_number, wire value)` pairs it contains. -/
def parseFields (l : List Nat) : Option (List (Nat × WireVal)) :=
  if l = [] then some []
  else
    match h : parseField l with
    | none => none
    | some (t, r) => (parseFields r).map (t :: ·)
  termination_by l.length
  decreasing_by exact parseField_length h

theorem parseFields_nil : parseFields [] = some [] := by
  unfold parseFields
  rfl

theorem parseFields_eq_cons {l : List Nat} {t : Nat × WireVal} {r : List Nat}
    (hne : l ≠ []) (h : parseField l = some (t, r)) :
    parseFields l = (parseFields r).map (t :: ·) := by
  rw [parseFields, if_neg hne]
  split
  · rename_i heq
    rw [h] at heq
    exact Option.noConfusion heq
  · rename_i t' r' heq
    rw [h] at heq
    cases heq
    rfl

theorem parseFields_eq_none {l : List Nat} (hne : l ≠ [])
    (h : parseField l = none) : parseFields l = none := by
  rw [parseFields, if_neg hne]
  split
  · rfl
  · rename_i t' r' heq
    rw [h] at heq
    exact Option.noConfusion heq

/-- A field parse on a prefix extends to the whole buffer. -/
theorem parseField_append {a : List Nat} {t : Nat × WireVal} {r : List Nat}
    (h : parseField a = some (t, r)) (b : List Nat) :
    parseField (a ++ b) = some (t, r ++ b) := by
  unfold parseField at h ⊢
  cases htag : decodeVarint a with
  | none => rw [htag] at h; exact Option.noConfusion h
  | some p =>
    obtain ⟨tag, r1⟩ := p
    rw [htag] at h
    rw [decodeVarint_append htag b]
    dsimp only at h ⊢
    by_cases h0 : tag % 8 = 0
    · rw [if_pos h0] at h ⊢
      cases hval : decodeVarint r1 with
      | none => rw [hval] at h; exact Option.noConfusion h
      | some q =>
        obtain ⟨v, r2⟩ := q
        rw [hval] at h
        rw [decodeVarint_append hval b]
        cases h
        rfl
    rw [if_neg h0] at h ⊢
    by_cases hw1 : tag % 8 = 1
    · rw [if_pos hw1] at h ⊢
      by_cases hlen : 8 ≤ r1.length
      · rw [if_pos hlen] at h
        cases h
        rw [if_pos (by simp only [List.length_append]; omega),
          List.take_append_of_le_length hlen, List.drop_append_of_le_length hlen]
      · rw [if_neg hlen] at h
        exact Option.noConfusion h
    rw [if_neg hw1] at h ⊢
    by_cases hw2 : tag % 8 = 2
    · rw [if_pos hw2] at h ⊢
      cases hval : decodeVarint r1 with
      | none => rw [hval] at h; exact Option.noConfusion h
      | some q =>
        obtain ⟨len, r2⟩ := q
        rw [hval] at h
        rw [decodeVarint_append hval b]
        dsimp only at h ⊢
        by_cases hle : len ≤ r2.length
        · rw [if_pos hle] at h
          cases h
          rw [if_pos (by simp only [List.length_append]; omega),
            List.take_append_of_le_length hle, List.drop_append_of_le_length hle]
        · rw [if_neg hle] at h
          exact Option.noConfusion h
    rw [if_neg hw2] at h ⊢
    by_cases hw5 : tag % 8 = 5
    · rw [if_pos hw5] at h ⊢
      by_cases hlen : 4 ≤ r1.length
      · rw [if_pos hlen] at h
        cases h
        rw [if_pos (by simp only [List.length_append]; omega),
          List.take_append_of_le_length hlen, List.drop_append_of_le_length hlen]
      · rw [if_neg hlen] at h
        exact Option.noConfusion h
    rw [if_neg hw5] at h
    exact Option.noConfusion h

theorem parseFields_append_aux (b : List Nat) :
    ∀ (n : Nat) (a : List Nat) (ts : List (Nat × WireVal)), a.length ≤ n →
      parseFields a = some ts →
      parseFields (a ++ b) = (parseFields b).map (ts ++ ·) := by
  intro n
  induction n with
  | zero =>
    intro a ts hlen h
    have : a = [] := List.eq_nil_of_length_eq_zero (by omega)
    subst this
    rw [parseFields_nil] at h
    cases h
    simp only [List.nil_append]
    cases parseFields b <;> simp
  | succ n ih =>
    intro a ts hlen h
    by_cases hne : a = []
    · subst hne
      rw [parseFields_nil] at h
      cases h
      simp only [List.nil_append]
      cases parseFields b <;> simp
    · cases hpf : parseField a with
      | none =>
        rw [parseFields_eq_none hne hpf] at h
        exact Option.noConfusion h
      | some p =>
        obtain ⟨t, r⟩ := p
        rw [parseFields_eq_cons hne hpf] at h
        cases hr : parseFields r with
        | none => rw [hr] at h; exact Option.noConfusion h
        | some ts' =>
          rw [hr] at h
          cases h
          have hrlen := parseField_length hpf
          have hab : a ++ b ≠ [] := by simp [hne]
          rw [parseFields_eq_cons hab (parseField_append hpf b),
            ih r ts' (by omega) hr]
          cases parseFields b <;> simp

/-- Tokenizing a concatenation splits into the tokens of each part, when
the first part tokenizes successfully. -/
theorem parseFields_append {a : List Nat} {ts : List (Nat × WireVal)}
    (h : parseFields a = some ts) (b : List Nat) :
    parseFields (a ++ b) = (parseFields b).map (ts ++ ·) :=
  parseFields_append_aux b a.length a ts le_rfl h

theorem encVarintField_ne_nil (fn v : Nat) : encVarintField fn v ≠ [] := by
  unfold encVarintField encTag
  intro h
  exact encodeVarint_ne_nil _ (List.append_eq_nil.mp h).1

theorem encLenField_ne_nil (fn : Nat) (p : List Nat) : encLenField fn p ≠ [] := by
  unfold encLenField encTag
  intro h
  exact encodeVarint_ne_nil _ (List.append_eq_nil.mp (List.append_eq_nil.mp h).1).1

/-- Parsing a varint field recovers the field number and value. -/
theorem parseField_encVarintField (fn v : Nat) (rest : List Nat) :
    parseField (encVarintField fn v ++ rest) = some ((fn, WireVal.varint v), rest) := by
  unfold parseField encVarintField encTag
  rw [List.append_assoc, decodeVarint_encodeVarint]
  dsimp only
  have hmod : (fn * 8 + 0) % 8 = 0 := by omega
  have hdiv : (fn * 8 + 0) / 8 = fn := by omega
  simp [hmod, hdiv, decodeVarint_encodeVarint]

/-- Parsing a length-delimited field recovers the field number and
payload. -/
theorem parseField_encLenField (fn : Nat) (p rest : List Nat) :
    parseField (encLenField fn p ++ rest) = some ((fn, WireVal.lenDelim p), rest) := by
  unfold parseField encLenField encTag
  rw [List.append_assoc, List.append_assoc, decodeVarint_encodeVarint]
  dsimp only
  have hmod : (fn * 8 + 2) % 8 = 2 := by omega
  have hdiv : (fn * 8 + 2) / 8 = fn := by omega
  simp only [hmod, hdiv, decodeVarint_encodeVarint]
  norm_num

/-- Tokenizing a buffer that starts with a varint field. -/
theorem parseFields_encVarintField (fn v : Nat) (rest : List Nat) :
    parseFields (encVarintField fn v ++ rest) =
      (parseFields rest).map ((fn, WireVal.varint v) :: ·) := by
  refine parseFields_eq_cons ?_ (parseField_encVarintField fn v rest)
  simp [encVarintField_ne_nil]

/-- Tokenizing a buffer that starts with a length-delimited field. -/
theorem parseFields_encLenField (fn : Nat) (p rest : List Nat) :
    parseFields (encLenField fn p ++ rest) =
      (parseFields rest).map ((fn, WireVal.lenDelim p) :: ·) := by
  refine parseFields_eq_cons ?_ (parseField_encLenField fn p rest)
  simp [encLenField_ne_nil]

/-! ## Message encoding for a representative message type (spec 4.2)

Modelled from the spec: the field/message encoding tables
(`mesh_protobuf::encoding`, `mesh_protobuf::table`) are not part of the
excerpt.  We model the canonical encodings for a representative message
`Foo` mirroring the shape exercised by `tests::test_merge`: two varint
scalars, a string, an optional bool, a packed repeated varint field, a
byte string, a repeated nested message, and a tagged union.  Default
values are omitted on the wire (an all-default message encodes to zero
bytes); options always write their field when present; tagged unions are
encoded as a nested message with one field per variant whose field number
is the variant discriminant, the variant field being written even when
its payload is all-default. -/

/-- Nested message `Bar(u32)` from the merge test. -/
structure Bar where
  b : Nat
deriving DecidableEq, Repr

/-- Tagged union `Enum { A(u32), B(Option<u32>, Vec<u8>) }` from the
merge test. -/
inductive En : Type where
  | A (n : Nat)
  | B (o : Option Nat) (bs : List Nat)
deriving DecidableEq, Repr

/-- Representative message `Foo` from the merge test. -/
structure Foo where
  x : Nat
  y : Nat
  z : String
  w : Option Bool
  v : List Nat
  v8 : List Nat
  vb : List Bar
  e : En
deriving DecidableEq, Repr

/-- Modelled from the spec: a packed run is the concatenation of each
element's scalar wire form. -/
def encodePackedNats (ns : List Nat) : List Nat :=
  (ns.map encodeVarint).flatten

/-- Modelled from the spec: a string payload is the concatenated wire
forms of its characters' code points. -/
def encodeStringPayload (sv : String) : List Nat :=
  ((sv.data.map Char.toNat).map encodeVarint).flatten

/-- Modelled from the spec: the message bytes of a `Bar`, omitting the
default value. -/
def encodeBarMsg (bar : Bar) : List Nat :=
  if bar.b = 0 then [] else encVarintField 1 bar.b

/-- Modelled from the spec: the message bytes of an `En` value: one field
per variant, field number = discriminant, the variant field always
written, defaults omitted inside the payload, options written whenever
present. -/
def encodeEnMsg : En → List Nat
  | .A n => encLenField 1 (if n = 0 then [] else encVarintField 1 n)
  | .B o bs =>
    encLenField 2
      ((match o with
        | none => []
        | some n => encVarintField 1 n) ++
        (if bs = [] then [] else encLenField 2 bs))

/-- Modelled from the spec: the message bytes of a `Foo`: fields 1..8 in
order, defaults omitted, packed repeated varints, repeated nested
messages unpacked, tagged union last. -/
def encodeFoo (f : Foo) : List Nat :=
  (if f.x = 0 then [] else encVarintField 1 f.x) ++
  (if f.y = 0 then [] else encVarintField 2 f.y) ++
  (if f.z = "" then [] else encLenField 3 (encodeStringPayload f.z)) ++
  (match f.w with
    | none => []
    | some b => encVarintField 4 (if b then 1 else 0)) ++
  (if f.v = [] then [] else encLenField 5 (encodePackedNats f.v)) ++
  (if f.v8 = [] then [] else encLenField 6 f.v8) ++
  (f.vb.map (fun bar => encLenField 7 (encodeBarMsg bar))).flatten ++
  encLenField 8 (encodeEnMsg f.e)

/-- Modelled from the spec: decodes a packed run of varints. -/
def decodePackedNats (l : List Nat) : Option (List Nat) :=
  if l = [] then some []
  else
    match h : decodeVarint l with
    | none => none
    | some (n, r) => (decodePackedNats r).map (n :: ·)
  termination_by l.length
  decreasing_by exact decodeVarint_length h

/-- Constructs the character with the given code point, or fails if the
code point is invalid. -/
def charOfNat? (n : Nat) : Option Char :=
  if h : n.isValidChar then some (Char.ofNatAux n h) else none

/-- Converts code points to characters, failing on an invalid one. -/
def charsOfNats : List Nat → Option (List Char)
  | [] => some []
  | n :: ns => (charOfNat? n).bind fun c => (charsOfNats ns).map (c :: ·)

/-- Modelled from the spec: decodes a string payload, failing on an
invalid code point. -/
def decodeString (l : List Nat) : Option String :=
  (decodePackedNats l).bind fun ns => (charsOfNats ns).map String.mk

/-- Modelled from the spec: interprets the fields of a `Bar` message onto
an accumulator (proto3 merge: the scalar is replaced when present). -/
def decodeBarTokens (acc : Nat) : List (Nat × WireVal) → Option Nat
  | [] => some acc
  | (1, WireVal.varint n) :: ts => decodeBarTokens n ts
  | (1, _) :: _ => none
  | _ :: ts => decodeBarTokens acc ts

/-- Modelled from the spec: decodes a `Bar` nested message. -/
def decodeBarMsg (bytes : List Nat) : Option Bar :=
  (parseFields bytes).bind fun ts => (decodeBarTokens 0 ts).map Bar.mk

/-- Modelled from the spec: interprets the fields of variant `A`'s
payload message. -/
def decodeATokens (acc : Nat) : List (Nat × WireVal) → Option Nat
  | [] => some acc
  | (1, WireVal.varint n) :: ts => decodeATokens n ts
  | (1, _) :: _ => none
  | _ :: ts => decodeATokens acc ts

/-- Modelled from the spec: interprets the fields of variant `B`'s
payload message (option replaced when present, bytes concatenated). -/
def decodeBTokens (o : Option Nat) (bs : List Nat) :
    List (Nat × WireVal) → Option (Option Nat × List Nat)
  | [] => some (o, bs)
  | (1, WireVal.varint n) :: ts => decodeBTokens (some n) bs ts
  | (1, _) :: _ => none
  | (2, WireVal.lenDelim pb) :: ts => decodeBTokens o (bs ++ pb) ts
  | (2, _) :: _ => none
  | _ :: ts => decodeBTokens o bs ts

/-- Modelled from the spec: merges one variant field of the union message
onto the current value.  A repeated variant of the same discriminant
merges its payload message recursively; a different discriminant decodes
the payload afresh, replacing the variant. -/
def mergeEnToken (acc : Option En) (fn : Nat) (w : WireVal) : Option (Option En) :=
  match fn, w with
  | 1, WireVal.lenDelim pb =>
    (parseFields pb).bind fun ts =>
      let start := match acc with | some (En.A n) => n | _ => 0
      (decodeATokens start ts).map fun n => some (En.A n)
  | 2, WireVal.lenDelim pb =>
    (parseFields pb).bind fun ts =>
      let start := match acc with | some (En.B o bs) => (o, bs) | _ => (none, [])
      (decodeBTokens start.1 start.2 ts).map fun p => some (En.B p.1 p.2)
  | 1, _ => none
  | 2, _ => none
  | _, _ => some acc

/-- Modelled from the spec: interprets the fields of the union message in
order; the last present variant wins. -/
def decodeEnTokens (acc : Option En) : List (Nat × WireVal) → Option (Option En)
  | [] => some acc
  | (fn, w) :: ts => (mergeEnToken acc fn w).bind fun a => decodeEnTokens a ts

/-- In-place decoding state for `Foo`: every field defaultable except the
union, which has no default. -/
structure FooAcc where
  x : Nat
  y : Nat
  z : String
  w : Option Bool
  v : List Nat
  v8 : List Nat
  vb : List Bar
  e : Option En
deriving DecidableEq, Repr

/-- The uninitialised decoding state. -/
def fooStart : FooAcc := ⟨0, 0, "", none, [], [], [], none⟩

/-- The decoding state corresponding to an already-initialised value, as
used by `merge`. -/
def accOf (f : Foo) : FooAcc := ⟨f.x, f.y, f.z, f.w, f.v, f.v8, f.vb, some f.e⟩

/-- Extracts the decoded value, failing if the union never appeared. -/
def fooOf (acc : FooAcc) : Option Foo :=
  acc.e.map fun e => ⟨acc.x, acc.y, acc.z, acc.w, acc.v, acc.v8, acc.vb, e⟩

/-- Modelled from the spec: merges one field of a `Foo` message onto the
decoding state, per proto3 merge rules (scalars replace, repeated fields
concatenate, unions replace the variant); unknown fields are skipped,
known fields of the wrong wire type fail. -/
def stepFoo (acc : FooAcc) (fn : Nat) (w : WireVal) : Option FooAcc :=
  match fn, w with
  | 1, WireVal.varint n => some { acc with x := n }
  | 2, WireVal.varint n => some { acc with y := n }
  | 3, WireVal.lenDelim pb => (decodeString pb).map fun sv => { acc with z := sv }
  | 4, WireVal.varint n => some { acc with w := some (n ≠ 0) }
  | 5, WireVal.lenDelim pb =>
    (decodePackedNats pb).map fun ns => { acc with v := acc.v ++ ns }
  | 5, WireVal.varint n => some { acc with v := acc.v ++ [n] }
  | 6, WireVal.lenDelim pb => some { acc with v8 := acc.v8 ++ pb }
  | 7, WireVal.lenDelim pb =>
    (decodeBarMsg pb).map fun bar => { acc with vb := acc.vb ++ [bar] }
  | 8, WireVal.lenDelim pb =>
    (parseFields pb).bind fun ts =>
      (decodeEnTokens acc.e ts).map fun e => { acc with e := e }
  | 1, _ => none
  | 2, _ => none
  | 3, _ => none
  | 4, _ => none
  | 5, _ => none
  | 6, _ => none
  | 7, _ => none
  | 8, _ => none
  | _, _ => some acc

/-- Modelled from the spec: folds the message's fields onto the decoding
state in order. -/
def decodeFooTokens (acc : FooAcc) : List (Nat × WireVal) → Option FooAcc
  | [] => some acc
  | (fn, w) :: ts => (stepFoo acc fn w).bind fun a => decodeFooTokens a ts

/-- Embedding of `mesh_protobuf::encode` at type `Foo`: encodes a message
with its default encoding. -/
def encode (f : Foo) : List Nat := encodeFoo f

/-- Embedding of `mesh_protobuf::decode` at type `Foo`: decodes a message
with its default encoding into an uninitialised in-place slot. -/
def decode (data : List Nat) : Option Foo :=
  ((parseFields data).bind (decodeFooTokens fooStart)).bind fooOf

/-- Embedding of `mesh_protobuf::merge` at type `Foo`: merges message
fields into an existing message by decoding onto an initialised in-place
slot. -/
def merge (value : Foo) (data : List Nat) : Option Foo :=
  ((parseFields data).bind (decodeFooTokens (accOf value))).bind fooOf

/-- The proto3 merge of two union values: same variant merges the payload
message recursively (scalar replaced when present, option kept when the
second is absent, bytes concatenated), different variant replaced by the
second. -/
def mergeEn : En → En → En
  | En.A n, En.A m => En.A (if m = 0 then n else m)
  | En.B o bs, En.B o2 bs2 =>
    En.B (match o2 with | some n => some n | none => o) (bs ++ bs2)
  | _, y => y

/-- The proto3 merge of two `Foo` values: scalars are replaced when the
second value is non-default, options replaced when present, repeated
fields concatenated, the union merged per `mergeEn`. -/
def mergeFooSpec (a b : Foo) : Foo where
  x := if b.x = 0 then a.x else b.x
  y := if b.y = 0 then a.y else b.y
  z := if b.z = "" then a.z else b.z
  w := match b.w with | some v => some v | none => a.w
  v := a.v ++ b.v
  v8 := a.v8 ++ b.v8
  vb := a.vb ++ b.vb
  e := mergeEn a.e b.e

/-! ## Tokenization of encoded messages -/

/-- `ParsesTo c t` states that the byte run `c` tokenizes to `t` in front
of any continuation. -/
def ParsesTo (c : List Nat) (t : List (Nat × WireVal)) : Prop :=
  ∀ rest, parseFields (c ++ rest) = (parseFields rest).map (t ++ ·)

theorem ParsesTo.nil : ParsesTo [] [] := by
  intro rest
  simp only [List.nil_append]
  cases parseFields rest <;> simp

theorem ParsesTo.varintField (fn v : Nat) :
    ParsesTo (encVarintField fn v) [(fn, WireVal.varint v)] := by
  intro rest
  rw [parseFields_encVarintField]
  cases parseFields rest <;> simp

theorem ParsesTo.lenField (fn : Nat) (p : List Nat) :
    ParsesTo (encLenField fn p) [(fn, WireVal.lenDelim p)] := by
  intro rest
  rw [parseFields_encLenField]
  cases parseFields rest <;> simp

theorem ParsesTo.append {c1 c2 : List Nat} {t1 t2 : List (Nat × WireVal)}
    (h1 : ParsesTo c1 t1) (h2 : ParsesTo c2 t2) :
    ParsesTo (c1 ++ c2) (t1 ++ t2) := by
  intro rest
  rw [List.append_assoc, h1, h2]
  cases parseFields rest <;> simp

theorem ParsesTo.parseFields {c : List Nat} {t : List (Nat × WireVal)}
    (h : ParsesTo c t) : parseFields c = some t := by
  have := h []
  rw [List.append_nil, parseFields_nil] at this
  simpa using this

theorem ParsesTo.ite {P : Prop} [Decidable P] {c1 c2 : List Nat}
    {t1 t2 : List (Nat × WireVal)} (h1 : ParsesTo c1 t1) (h2 : ParsesTo c2 t2) :
    ParsesTo (if P then c1 else c2) (if P then t1 else t2) := by
  by_cases hp : P
  · simpa [hp] using h1
  · simpa [hp] using h2

theorem ParsesTo.flatMapLen (fn : Nat) (ps : List (List Nat)) :
    ParsesTo ((ps.map (encLenField fn)).flatten)
      (ps.map fun p => (fn, WireVal.lenDelim p)) := by
  induction ps with
  | nil => simpa using ParsesTo.nil
  | cons p ps ih =>
    simpa using ParsesTo.append (ParsesTo.lenField fn p) ih

/-- The token sequence of an encoded `Foo`. -/
def fooTokens (f : Foo) : List (Nat × WireVal) :=
  (if f.x = 0 then [] else [(1, WireVal.varint f.x)]) ++
  (if f.y = 0 then [] else [(2, WireVal.varint f.y)]) ++
  (if f.z = "" then [] else [(3, WireVal.lenDelim (encodeStringPayload f.z))]) ++
  (match f.w with
    | none => []
    | some b => [(4, WireVal.varint (if b then 1 else 0))]) ++
  (if f.v = [] then [] else [(5, WireVal.lenDelim (encodePackedNats f.v))]) ++
  (if f.v8 = [] then [] else [(6, WireVal.lenDelim f.v8)]) ++
  (f.vb.map fun bar => (7, WireVal.lenDelim (encodeBarMsg bar))) ++
  [(8, WireVal.lenDelim (encodeEnMsg f.e))]

theorem parsesTo_encodeFoo (f : Foo) : ParsesTo (encodeFoo f) (fooTokens f) := by
  unfold encodeFoo fooTokens
  refine ParsesTo.append (ParsesTo.append (ParsesTo.append (ParsesTo.append
    (ParsesTo.append (ParsesTo.append (ParsesTo.append ?_ ?_) ?_) ?_) ?_) ?_) ?_) ?_
  · exact ParsesTo.ite (ParsesTo.nil) (ParsesTo.varintField 1 f.x)
  · exact ParsesTo.ite (ParsesTo.nil) (ParsesTo.varintField 2 f.y)
  · exact ParsesTo.ite (ParsesTo.nil) (ParsesTo.lenField 3 (encodeStringPayload f.z))
  · cases f.w with
    | none => exact ParsesTo.nil
    | some b => exact ParsesTo.varintField 4 _
  · exact ParsesTo.ite (ParsesTo.nil) (ParsesTo.lenField 5 (encodePackedNats f.v))
  · exact ParsesTo.ite (ParsesTo.nil) (ParsesTo.lenField 6 f.v8)
  · have := ParsesTo.flatMapLen 7 (f.vb.map encodeBarMsg)
    simpa [List.map_map, Function.comp] using this
  · exact ParsesTo.lenField 8 (encodeEnMsg f.e)

/-! ## Decoding the encoded payloads -/

theorem decodePackedNats_nil : decodePackedNats [] = some [] := by
  unfold decodePackedNats
  rfl

theorem decodePackedNats_eq_cons {l : List Nat} {n : Nat} {r : List Nat}
    (hne : l ≠ []) (h : decodeVarint l = some (n, r)) :
    decodePackedNats l = (decodePackedNats r).map (n :: ·) := by
  rw [decodePackedNats, if_neg hne]
  split
  · rename_i heq
    rw [h] at heq
    exact Option.noConfusion heq
  · rename_i n' r' heq
    rw [h] at heq
    cases heq
    rfl

/-- Decoding a packed run of encoded varints recovers the values. -/
theorem decodePackedNats_encode (ns : List Nat) :
    decodePackedNats ((ns.map encodeVarint).flatten) = some ns := by
  induction ns with
  | nil => simpa using decodePackedNats_nil
  | cons n ns ih =>
    have hd : decodeVarint (encodeVarint n ++ (ns.map encodeVarint).flatten) =
        some (n, (ns.map encodeVarint).flatten) := decodeVarint_encodeVarint n _
    have hne : encodeVarint n ++ (ns.map encodeVarint).flatten ≠ [] := by
      intro hc
      exact encodeVarint_ne_nil n (List.append_eq_nil.mp hc).1
    simp only [List.map_cons, List.flatten_cons]
    rw [decodePackedNats_eq_cons hne hd, ih]
    rfl

theorem charOfNat?_toNat (c : Char) : charOfNat? c.toNat = some c := by
  unfold charOfNat?
  have hv : c.toNat.isValidChar := c.valid
  rw [dif_pos hv]
  congr 1

theorem charsOfNats_toNat (cs : List Char) :
    charsOfNats (cs.map Char.toNat) = some cs := by
  induction cs with
  | nil => rfl
  | cons c cs ih => simp [charsOfNats, charOfNat?_toNat, ih]

/-- Decoding an encoded string payload recovers the string. -/
theorem decodeString_encode (sv : String) :
    decodeString (encodeStringPayload sv) = some sv := by
  unfold decodeString encodeStringPayload
  rw [decodePackedNats_encode]
  simp only [Option.some_bind']
  rw [charsOfNats_toNat]
  cases sv
  rfl

/-- Decoding an encoded `Bar` message recovers the value. -/
theorem decodeBarMsg_encode (bar : Bar) :
    decodeBarMsg (encodeBarMsg bar) = some bar := by
  unfold decodeBarMsg encodeBarMsg
  by_cases hb : bar.b = 0
  · rw [if_pos hb, parseFields_nil]
    simp [decodeBarTokens, hb.symm]
  · rw [if_neg hb, (ParsesTo.varintField 1 bar.b).parseFields]
    simp [decodeBarTokens]

/-- The merge of an optional current union value with a newly decoded
one. -/
def mergeEnOpt (a : Option En) (y : En) : En :=
  match a with
  | none => y
  | some x => mergeEn x y

/-- Decoding an encoded union message onto any current value produces the
proto3 merge of the two. -/
theorem decodeEn_encodeEnMsg (a : Option En) (y : En) :
    (parseFields (encodeEnMsg y)).bind (decodeEnTokens a) =
      some (some (mergeEnOpt a y)) := by
  cases y with
  | A m =>
    unfold encodeEnMsg
    rw [(ParsesTo.lenField 1 _).parseFields]
    simp only [Option.some_bind', decodeEnTokens, mergeEnToken]
    by_cases hm : m = 0
    · rw [if_pos hm, parseFields_nil]
      cases a with
      | none => simp [decodeEnTokens, mergeEnOpt, decodeATokens, hm]
      | some x =>
        cases x <;>
          simp [decodeEnTokens, mergeEnOpt, mergeEn, decodeATokens, hm]
    · rw [if_neg hm, (ParsesTo.varintField 1 m).parseFields]
      cases a with
      | none => simp [decodeEnTokens, mergeEnOpt, decodeATokens]
      | some x =>
        cases x <;>
          simp [decodeEnTokens, mergeEnOpt, mergeEn, decodeATokens, hm]
  | B o2 bs2 =>
    unfold encodeEnMsg
    rw [(ParsesTo.lenField 2 _).parseFields]
    simp only [Option.some_bind', decodeEnTokens, mergeEnToken]
    have hp : ParsesTo
        ((match o2 with
          | none => []
          | some n => encVarintField 1 n) ++
          (if bs2 = [] then [] else encLenField 2 bs2))
        ((match o2 with
          | none => []
          | some n => [(1, WireVal.varint n)]) ++
          (if bs2 = [] then [] else [(2, WireVal.lenDelim bs2)])) := by
      refine ParsesTo.append ?_ (ParsesTo.ite ParsesTo.nil (ParsesTo.lenField 2 bs2))
      cases o2 with
      | none => exact ParsesTo.nil
      | some n => exact ParsesTo.varintField 1 n
    rw [hp.parseFields]
    by_cases hbs : bs2 = []
    · cases o2 with
      | none =>
        cases a with
        | none => simp [decodeEnTokens, mergeEnOpt, decodeBTokens, hbs]
        | some x =>
          cases x <;>
            simp [decodeEnTokens, mergeEnOpt, mergeEn, decodeBTokens, hbs]
      | some n =>
        cases a with
        | none => simp [decodeEnTokens, mergeEnOpt, decodeBTokens, hbs]
        | some x =>
          cases x <;>
            simp [decodeEnTokens, mergeEnOpt, mergeEn, decodeBTokens, hbs]
    · cases o2 with
      | none =>
        cases a with
        | none => simp [decodeEnTokens, mergeEnOpt, decodeBTokens, hbs]
        | some x =>
          cases x <;>
            simp [decodeEnTokens, mergeEnOpt, mergeEn, decodeBTokens, hbs]
      | some n =>
        cases a with
        | none => simp [decodeEnTokens, mergeEnOpt, decodeBTokens, hbs]
        | some x =>
          cases x <;>
            simp [decodeEnTokens, mergeEnOpt, mergeEn, decodeBTokens, hbs]

/-! ## Decoding a full encoded `Foo` onto a state -/

theorem decodeFooTokens_append (acc : FooAcc) (t1 t2 : List (Nat × WireVal)) :
    decodeFooTokens acc (t1 ++ t2) =
      (decodeFooTokens acc t1).bind fun a => decodeFooTokens a t2 := by
  induction t1 generalizing acc with
  | nil => simp [decodeFooTokens]
  | cons t ts ih =>
    obtain ⟨fn, w⟩ := t
    simp only [List.cons_append, decodeFooTokens]
    cases stepFoo acc fn w with
    | none => simp
    | some a => simp [ih]

/-- The in-place merge of a decoding state with a second message's
fields. -/
def mergeAccSpec (acc : FooAcc) (f : Foo) : FooAcc where
  x := if f.x = 0 then acc.x else f.x
  y := if f.y = 0 then acc.y else f.y
  z := if f.z = "" then acc.z else f.z
  w := match f.w with | some b => some b | none => acc.w
  v := acc.v ++ f.v
  v8 := acc.v8 ++ f.v8
  vb := acc.vb ++ f.vb
  e := some (mergeEnOpt acc.e f.e)

theorem decodeFooTokens_vb (acc : FooAcc) (l : List Bar) :
    decodeFooTokens acc (l.map fun bar => (7, WireVal.lenDelim (encodeBarMsg bar))) =
      some { acc with vb := acc.vb ++ l } := by
  induction l generalizing acc with
  | nil => simp [decodeFooTokens]
  | cons bar l ih =>
    simp only [List.map_cons, decodeFooTokens, stepFoo, decodeBarMsg_encode bar]
    simp [ih, List.append_assoc]

/-- Decoding the token sequence of an encoded `Foo` onto any state yields
the proto3 merge of the state with the message. -/
theorem decodeFooTokens_fooTokens (acc : FooAcc) (f : Foo) :
    decodeFooTokens acc (fooTokens f) = some (mergeAccSpec acc f) := by
  have hx : ∀ acc : FooAcc,
      decodeFooTokens acc (if f.x = 0 then [] else [(1, WireVal.varint f.x)]) =
        some { acc with x := if f.x = 0 then acc.x else f.x } := by
    intro acc
    by_cases hc : f.x = 0 <;> simp [hc, decodeFooTokens, stepFoo]
  have hy : ∀ acc : FooAcc,
      decodeFooTokens acc (if f.y = 0 then [] else [(2, WireVal.varint f.y)]) =
        some { acc with y := if f.y = 0 then acc.y else f.y } := by
    intro acc
    by_cases hc : f.y = 0 <;> simp [hc, decodeFooTokens, stepFoo]
  have hz : ∀ acc : FooAcc,
      decodeFooTokens acc
          (if f.z = "" then [] else [(3, WireVal.lenDelim (encodeStringPayload f.z))]) =
        some { acc with z := if f.z = "" then acc.z else f.z } := by
    intro acc
    by_cases hc : f.z = "" <;>
      simp [hc, decodeFooTokens, stepFoo, decodeString_encode]
  have hw : ∀ acc : FooAcc,
      decodeFooTokens acc
          (match f.w with
            | none => []
            | some b => [(4, WireVal.varint (if b then 1 else 0))]) =
        some { acc with w := match f.w with | some b => some b | none => acc.w } := by
    intro acc
    cases hfw : f.w with
    | none => simp [decodeFooTokens]
    | some b => cases b <;> simp [decodeFooTokens, stepFoo]
  have hv : ∀ acc : FooAcc,
      decodeFooTokens acc
          (if f.v = [] then [] else [(5, WireVal.lenDelim (encodePackedNats f.v))]) =
        some { acc with v := acc.v ++ f.v } := by
    intro acc
    by_cases hc : f.v = [] <;>
      simp [hc, decodeFooTokens, stepFoo, encodePackedNats, decodePackedNats_encode]
  have hv8 : ∀ acc : FooAcc,
      decodeFooTokens acc (if f.v8 = [] then [] else [(6, WireVal.lenDelim f.v8)]) =
        some { acc with v8 := acc.v8 ++ f.v8 } := by
    intro acc
    by_cases hc : f.v8 = [] <;> simp [hc, decodeFooTokens, stepFoo]
  have he : ∀ acc : FooAcc,
      decodeFooTokens acc [(8, WireVal.lenDelim (encodeEnMsg f.e))] =
        some { acc with e := some (mergeEnOpt acc.e f.e) } := by
    intro acc
    simp only [decodeFooTokens, stepFoo]
    have h := decodeEn_encodeEnMsg acc.e f.e
    cases hpf : parseFields (encodeEnMsg f.e) with
    | none => rw [hpf] at h; exact Option.noConfusion h
    | some ts =>
      rw [hpf] at h
      simp only [Option.some_bind'] at h ⊢
      rw [h]
      simp [decodeFooTokens]
  unfold fooTokens
  simp only [List.append_assoc]
  rw [decodeFooTokens_append, hx acc, Option.some_bind',
    decodeFooTokens_append, hy _, Option.some_bind',
    decodeFooTokens_append, hz _, Option.some_bind',
    decodeFooTokens_append, hw _, Option.some_bind',
    decodeFooTokens_append, hv _, Option.some_bind',
    decodeFooTokens_append, hv8 _, Option.some_bind',
    decodeFooTokens_append, decodeFooTokens_vb _ f.vb, Option.some_bind',
    he _]
  rfl

/-- Merging onto the uninitialised state decodes the value exactly. -/
theorem mergeAccSpec_fooStart (f : Foo) : mergeAccSpec fooStart f = accOf f := by
  unfold mergeAccSpec fooStart accOf mergeEnOpt
  have hn : ∀ n : Nat, (if n = 0 then (0 : Nat) else n) = n := by
    intro n
    by_cases h : n = 0 <;> simp [h]
  have hs : (if f.z = "" then "" else f.z) = f.z := by
    by_cases h : f.z = "" <;> simp [h]
  have hw : (match f.w with | some b => some b | none => (none : Option Bool)) = f.w := by
    cases f.w <;> rfl
  simp [hn, hs, hw]

theorem fooOf_mergeAccSpec_accOf (x y : Foo) :
    fooOf (mergeAccSpec (accOf x) y) = some (mergeFooSpec x y) := rfl

/-- C1: for every encodable value `f` of the representative message type
`Foo` (covering varint scalars, strings, options, packed repeated fields,
byte strings, repeated nested messages and tagged unions), decoding the
bytes produced by encoding `f` yields a value equal to `f`:
`decode (encode f) = some f`. -/
theorem encode_decode_roundtrip (f : Foo) : decode (encode f) = some f := by
  unfold decode encode
  rw [(parsesTo_encodeFoo f).parseFields, Option.some_bind',
    decodeFooTokens_fooTokens, mergeAccSpec_fooStart, Option.some_bind']
  unfold fooOf accOf
  rfl

/-- C2: for all `x y : Foo`, merging `y`'s encoding into `x` equals
decoding the concatenation `encode x ++ encode y`, and both equal the
proto3 merge of `x` and `y` (`mergeFooSpec`): scalar fields are replaced
by the second value when present on the wire, nested messages merge
recursively, repeated fields concatenate, and tagged unions replace the
variant (merging the payload recursively when the variant repeats). -/
theorem merge_concat (x y : Foo) :
    merge x (encode y) = decode (encode x ++ encode y) ∧
      decode (encode x ++ encode y) = some (mergeFooSpec x y) := by
  have hmerge : merge x (encode y) = some (mergeFooSpec x y) := by
    unfold merge encode
    rw [(parsesTo_encodeFoo y).parseFields, Option.some_bind',
      decodeFooTokens_fooTokens, Option.some_bind', fooOf_mergeAccSpec_accOf]
  have hconcat : decode (encode x ++ encode y) = some (mergeFooSpec x y) := by
    unfold decode encode
    rw [parseFields_append (parsesTo_encodeFoo x).parseFields,
      (parsesTo_encodeFoo y).parseFields]
    simp only [Option.map_some', Option.some_bind']
    rw [decodeFooTokens_append, decodeFooTokens_fooTokens, mergeAccSpec_fooStart,
      Option.some_bind', decodeFooTokens_fooTokens, Option.some_bind',
      fooOf_mergeAccSpec_accOf]
  exact ⟨hmerge.trans hconcat.symm, hconcat⟩

/-! ## Decode errors and the type-trail (`mesh_protobuf/src/lib.rs`,
`Error`, `Error::typed`, `impl fmt::Display for Error`) -/

/-- Embeds `mesh_protobuf::Error` (via `ErrorInner`): a list of semantic
type names pushed innermost-first by `typed`, plus the underlying cause
(held in `err` and exposed through `source()`, modelled by its display
string). -/
structure Error where
  types : List String
  cause : String
deriving DecidableEq, Repr

namespace Error

/-- Embeds `Error::new`: no type context yet. -/
def new (cause : String) : Error := ⟨[], cause⟩

/-- Embeds `Error::typed::<T>`: pushes the type name onto the trail. -/
def typed (e : Error) (ty : String) : Error := ⟨e.types ++ [ty], e.cause⟩

/-- Embeds `impl fmt::Display for Error`: writes
`decoding failed in {last}` then `/{ty}` for each earlier entry in
reverse order, or `decoding failed` when the trail is empty.  The
underlying cause is not written; it is exposed via `source()`. -/
def display (e : Error) : String :=
  match e.types.getLast? with
  | some ty =>
    (e.types.reverse.drop 1).foldl (fun acc t => acc ++ "/" ++ t)
      ("decoding failed in " ++ ty)
  | none => "decoding failed"

/-- Embeds `impl std::error::Error for Error`::`source`: the underlying
cause. -/
def source (e : Error) : String := e.cause

end Error

theorem string_foldl_pull (x : String) :
    ∀ (m : List String) (y : String),
      m.foldl (fun a t => a ++ "/" ++ t) (x ++ y) =
        x ++ m.foldl (fun a t => a ++ "/" ++ t) y := by
  intro m
  induction m with
  | nil => intro y; simp
  | cons c mt ih =>
    intro y
    simp only [List.foldl_cons]
    rw [String.append_assoc x y, String.append_assoc x (y ++ "/"), ih]

theorem intercalate_go_foldl (acc : String) (l : List String) :
    String.intercalate.go acc "/" l =
      l.foldl (fun a t => a ++ "/" ++ t) acc := by
  induction l generalizing acc with
  | nil => rfl
  | cons b t ih => simp only [String.intercalate.go, ih, List.foldl_cons]

/-- C7 counterexample: a decode error whose trail is A/B/C (A outermost)
with underlying cause `boom` displays as `decoding failed in A/B/C`; the
cause is not part of the displayed message, contradicting the claimed
shape `decoding failed in A/B/C: <cause>`. -/
theorem error_display_counterexample :
    Error.display ((((Error.new "boom").typed "C").typed "B").typed "A") =
        "decoding failed in A/B/C" ∧
      Error.display ((((Error.new "boom").typed "C").typed "B").typed "A") ≠
        "decoding failed in A/B/C: boom" := by
  constructor
  · rfl
  · decide

/-- C7 (amended): every decode error carries a type-trail — each nesting
level appends the semantic type name via `typed` — and a nonempty trail
displays as `decoding failed in A/B/C` with A the outermost type; the
underlying cause is exposed via `source`, not in the displayed message. -/
theorem error_display_type_trail (e : Error) (h : e.types ≠ []) :
    Error.display e =
        "decoding failed in " ++ String.intercalate "/" e.types.reverse ∧
      Error.source e = e.cause := by
  refine ⟨?_, rfl⟩
  unfold Error.display
  cases hrev : e.types.reverse with
  | nil => exact absurd (by simpa using congrArg List.reverse hrev) h
  | cons hd tl =>
    have hlast : e.types.getLast? = some hd := by
      rw [← List.head?_reverse, hrev]
      rfl
    rw [hlast]
    simp only [List.drop_one, hrev, List.tail_cons]
    show _ = "decoding failed in " ++ String.intercalate.go hd "/" tl
    rw [intercalate_go_foldl, ← string_foldl_pull]

/-- Witness for the amended C7 theorem at a concrete error. -/
theorem error_display_type_trail_witness :
    Error.display ⟨["B", "A"], "boom"⟩ =
        "decoding failed in " ++ String.intercalate "/" (["B", "A"] : List String).reverse ∧
      Error.source ⟨["B", "A"], "boom"⟩ = "boom" :=
  error_display_type_trail ⟨["B", "A"], "boom"⟩ (by decide)

/-! ## Channels (`mesh_channel/src/lib.rs`)

Modelled from the spec: the bidirectional `bidir::Channel` backing the
channel wrappers is not part of the excerpt.  Per spec sections 3, 4.5
and 6, a unidirectional channel endpoint is a FIFO queue of in-flight
messages toward the receiver together with a peer-closed flag and a
terminal failure state; `send` enqueues, `try_recv`/`poll_recv` dequeue
or report empty/closed/failed, `send_and_close` atomically sends one
message and closes, and `bridge` splices two channels preserving queued
data in order. -/

/-- Embeds `mesh_channel::ChannelErrorKind`. -/
inductive ChannelErrorKind : Type where
  | nodeFailure
  | corruption
deriving DecidableEq, Repr

/-- Embeds `mesh_channel::RecvError`. -/
inductive RecvError : Type where
  | closed
  | error (kind : ChannelErrorKind)
deriving DecidableEq, Repr

/-- Embeds `mesh_channel::TryRecvError`. -/
inductive TryRecvError : Type where
  | empty
  | closed
  | error (kind : ChannelErrorKind)
deriving DecidableEq, Repr

/-- Model of `std::task::Poll`. -/
inductive Poll (α : Type) : Type where
  | ready (a : α)
  | pending
deriving DecidableEq, Repr

/-- Modelled from the spec: the receiving view of one channel: the FIFO
queue of messages in flight toward this endpoint, whether the peer has
closed, and whether the endpoint has failed terminally. -/
structure Chan (α : Type) : Type where
  queue : List α
  closed : Bool
  failed : Option ChannelErrorKind
deriving DecidableEq, Repr

namespace Chan

/-- Modelled from the spec: a freshly created channel: empty, open. -/
def new {α : Type} : Chan α := ⟨[], false, none⟩

/-- Modelled from the spec: `send` enqueues; non-blocking. -/
def send (c : Chan α) (m : α) : Chan α := { c with queue := c.queue ++ [m] }

/-- Modelled from the spec: `send_and_close` atomically sends one message
and closes the channel. -/
def sendAndClose (c : Chan α) (m : α) : Chan α :=
  { c with queue := c.queue ++ [m], closed := true }

/-- Modelled from the spec: non-blocking receive: the next queued
message, else `Error` if failed, `Closed` if the peer is gone, `Empty`
otherwise. -/
def tryRecv (c : Chan α) : Except TryRecvError α × Chan α :=
  match c.queue with
  | m :: rest => (Except.ok m, { c with queue := rest })
  | [] =>
    match c.failed with
    | some k => (Except.error (TryRecvError.error k), c)
    | none =>
      if c.closed then (Except.error TryRecvError.closed, c)
      else (Except.error TryRecvError.empty, c)

/-- Modelled from the spec: cooperative receive: ready with the next
queued message, ready with an error if failed or peer-closed with a
drained queue, pending otherwise. -/
def pollRecv (c : Chan α) : Poll (Except RecvError α) × Chan α :=
  match c.queue with
  | m :: rest => (Poll.ready (Except.ok m), { c with queue := rest })
  | [] =>
    match c.failed with
    | some k => (Poll.ready (Except.error (RecvError.error k)), c)
    | none =>
      if c.closed then (Poll.ready (Except.error RecvError.closed), c)
      else (Poll.pending, c)

end Chan

/-- Modelled from the spec: `Sender::bridge` consumes the sender (whose
channel carries `sendSide` toward the outer receiver) and a receiver
(whose channel carries `recvSide` toward it, sent by the outer sender),
splicing the two so that the outer endpoints talk directly: data already
enqueued toward the outer receiver is delivered first, then the data
that had been sent by the outer sender, then anything the outer sender
sends later.  The surviving channel is open: both outer endpoints are
still alive. -/
def senderBridge {α : Type} (sendSide recvSide : Chan α) : Chan α :=
  ⟨sendSide.queue ++ recvSide.queue, false, none⟩

/-- C3: with pairs `(outer_send, inner_recv)` and
`(inner_send, outer_recv)`, after `outer_send.send a`,
`inner_send.send b` and `inner_send.bridge inner_recv`, the outer
receiver yields `b` first and `a` second, and a further receive finds
the channel empty (no other values). -/
theorem bridge_linearization {α : Type} (a b : α) :
    (Chan.tryRecv (senderBridge (Chan.send Chan.new b) (Chan.send Chan.new a))).1 =
        Except.ok b ∧
      (Chan.tryRecv (Chan.tryRecv (senderBridge (Chan.send Chan.new b)
        (Chan.send Chan.new a))).2).1 = Except.ok a ∧
      (Chan.tryRecv (Chan.tryRecv (Chan.tryRecv (senderBridge
        (Chan.send Chan.new b) (Chan.send Chan.new a))).2).2).1 =
        Except.error TryRecvError.empty := by
  exact ⟨rfl, rfl, rfl⟩

/-- Embeds `OneshotSender::send`: sends the single value with
`send_and_close` on a fresh one-shot channel. -/
def oneshotSend {α : Type} (v : α) : Chan α := Chan.sendAndClose Chan.new v

/-- C4: after `OneshotSender::send v` the receiver's first receive is
ready with `Ok v`, and from then on the channel state is drained and
closed, so every subsequent receive is ready with `Err Closed` (the
state is a fixed point: the receiver never observes a second value). -/
theorem oneshot_send_recv {α : Type} (v : α) :
    Chan.pollRecv (oneshotSend v) =
        (Poll.ready (Except.ok v), (⟨[], true, none⟩ : Chan α)) ∧
      ∀ c : Chan α, c.queue = [] → c.closed = true → c.failed = none →
        Chan.pollRecv c = (Poll.ready (Except.error RecvError.closed), c) := by
  refine ⟨rfl, ?_⟩
  intro c hq hc hf
  obtain ⟨q, cl, f⟩ := c
  simp only at hq hc hf
  subst hq hc hf
  rfl

/-- Witness for C4 at a concrete value. -/
theorem oneshot_send_recv_witness :
    Chan.pollRecv (oneshotSend (5 : Nat)) =
        (Poll.ready (Except.ok 5), (⟨[], true, none⟩ : Chan Nat)) ∧
      Chan.pollRecv (⟨[], true, none⟩ : Chan Nat) =
        (Poll.ready (Except.error RecvError.closed), ⟨[], true, none⟩) :=
  ⟨(oneshot_send_recv 5).1, (oneshot_send_recv 5).2 _ rfl rfl rfl⟩

/-! ## MPSC channels (`mpsc_channel`, `MpscReceiver`, `MpscSender`) -/

/-- Embeds `MpscMessage<T>`: either data or a `Clone` control message
carrying the receiving endpoint of a freshly allocated channel (its
queue, closed flag and failure state). -/
inductive MpscMsg (α : Type) : Type where
  | data (a : α)
  | clone (queue : List (MpscMsg α)) (closed : Bool)
      (failed : Option ChannelErrorKind)

/-- The channel carried by a `Clone` message. -/
def MpscMsg.toChan : List (MpscMsg α) → Bool → Option ChannelErrorKind →
    Chan (MpscMsg α) :=
  fun q cl f => ⟨q, cl, f⟩

mutual

/-- Termination measure: a data message weighs 1; a clone message weighs
2 plus its carried queue. -/
def msgWeight : MpscMsg α → Nat
  | .data _ => 1
  | .clone q _ _ => 2 + msgListWeight q

def msgListWeight : List (MpscMsg α) → Nat
  | [] => 0
  | m :: ms => msgWeight m + msgListWeight ms

end

/-- Termination measure: a channel weighs 1 plus its queue. -/
def chanWeight (c : Chan (MpscMsg α)) : Nat := 1 + msgListWeight c.queue

/-- Termination measure of a receiver's port set. -/
def totalWeight (rs : List (Chan (MpscMsg α))) : Nat :=
  (rs.map chanWeight).sum

/-- Embeds `Vec::swap_remove`: replaces the element at `i` with the last
element and pops the last. -/
def swapRemove (rs : List β) (i : Nat) : List β :=
  match rs.getLast? with
  | some last => (rs.set i last).dropLast
  | none => []

theorem totalWeight_append (a b : List (Chan (MpscMsg α))) :
    totalWeight (a ++ b) = totalWeight a + totalWeight b := by
  unfold totalWeight
  rw [List.map_append, List.sum_append]

theorem totalWeight_set {rs : List (Chan (MpscMsg α))} {i : Nat}
    (h : i < rs.length) (c : Chan (MpscMsg α)) :
    totalWeight (rs.set i c) + chanWeight (rs.get ⟨i, h⟩) =
      totalWeight rs + chanWeight c := by
  induction rs generalizing i with
  | nil => simp at h
  | cons hd tl ih =>
    cases i with
    | zero =>
      simp [totalWeight, List.set]
      omega
    | succ j =>
      have hj : j < tl.length := by simpa using h
      have hih := ih hj
      have e1 : (hd :: tl).set (j + 1) c = hd :: tl.set j c := rfl
      have e2 : (hd :: tl).get ⟨j + 1, h⟩ = tl.get ⟨j, hj⟩ := rfl
      rw [e1, e2]
      simp only [totalWeight, List.map_cons, List.sum_cons] at hih ⊢
      omega

theorem length_swapRemove {rs : List β} {i : Nat} (h : rs ≠ []) :
    (swapRemove rs i).length = rs.length - 1 := by
  unfold swapRemove
  cases hlast : rs.getLast? with
  | none => simp [List.getLast?_eq_none_iff.mp hlast] at h
  | some last => simp [List.length_dropLast, List.length_set]

theorem getLast_set_getLast {rs : List (Chan (MpscMsg α))} {i : Nat}
    {last : Chan (MpscMsg α)} (hlast : rs.getLast? = some last)
    (hne : rs.set i last ≠ []) : (rs.set i last).getLast hne = last := by
  have hrs : rs ≠ [] := by
    intro hc
    rw [hc] at hlast
    exact Option.noConfusion hlast
  have hL : rs.getLast hrs = last := by
    rw [List.getLast?_eq_getLast rs hrs] at hlast
    exact Option.some.inj hlast
  have hlen : 0 < rs.length := List.length_pos.mpr hrs
  rw [List.getLast_eq_getElem] at hL ⊢
  simp only [List.length_set]
  rw [List.getElem_set]
  split
  · rfl
  · exact hL

theorem totalWeight_swapRemove {rs : List (Chan (MpscMsg α))} {i : Nat}
    (h : i < rs.length) :
    totalWeight (swapRemove rs i) + chanWeight (rs.get ⟨i, h⟩) =
      totalWeight rs := by
  have hne : rs ≠ [] := by
    intro hc
    rw [hc] at h
    simp at h
  unfold swapRemove
  cases hlast : rs.getLast? with
  | none => simp [List.getLast?_eq_none_iff.mp hlast] at hne
  | some last =>
    dsimp only
    have hsetne : rs.set i last ≠ [] := by
      intro hc
      have hlen0 : (rs.set i last).length = 0 := by rw [hc]; rfl
      rw [List.length_set] at hlen0
      omega
    have hsplit : (rs.set i last).dropLast ++ [(rs.set i last).getLast hsetne] =
        rs.set i last := List.dropLast_append_getLast hsetne
    have hw := congrArg totalWeight hsplit
    rw [totalWeight_append] at hw
    rw [getLast_set_getLast hlast hsetne] at hw
    have hset := totalWeight_set h last
    have hone : totalWeight [last] = chanWeight last := by
      simp [totalWeight]
    omega

/-- Embeds `MpscReceiver::poll_recv`'s loop: starting at index `i`,
polls each port in order; a data message at the head of a port's queue is
returned with that queue popped; a `Clone` message pushes the carried
port onto the end of the set and the same index is polled again; a port
that reports closed or failed is removed with `swap_remove`; a pending
port (empty queue, open) advances the index.  Past the end, an empty
port set reports `Closed`, otherwise the poll is pending.  The match
arms mirror the outcomes of `Chan.pollRecv` on the polled port. -/
def mpscPollFrom (rs : List (Chan (MpscMsg α))) (i : Nat) :
    Poll (Except RecvError α) × List (Chan (MpscMsg α)) :=
  if h : i < rs.length then
    match hq : (rs.get ⟨i, h⟩).queue with
    | MpscMsg.data a :: rest =>
      (Poll.ready (Except.ok a),
        rs.set i ⟨rest, (rs.get ⟨i, h⟩).closed, (rs.get ⟨i, h⟩).failed⟩)
    | MpscMsg.clone q cl fl :: rest =>
      mpscPollFrom
        (rs.set i ⟨rest, (rs.get ⟨i, h⟩).closed, (rs.get ⟨i, h⟩).failed⟩ ++
          [⟨q, cl, fl⟩]) i
    | [] =>
      match (rs.get ⟨i, h⟩).failed with
      | some _ => mpscPollFrom (swapRemove rs i) i
      | none =>
        if (rs.get ⟨i, h⟩).closed then mpscPollFrom (swapRemove rs i) i
        else mpscPollFrom rs (i + 1)
  else if rs.isEmpty then (Poll.ready (Except.error RecvError.closed), rs)
  else (Poll.pending, rs)
  termination_by (totalWeight rs, rs.length - i)
  decreasing_by
  all_goals first
  | (apply Prod.Lex.right
     omega)
  | (apply Prod.Lex.left
     first
     | (have hsw := totalWeight_swapRemove h
        have hcw : chanWeight (rs.get ⟨i, h⟩) =
            1 + msgListWeight (rs.get ⟨i, h⟩).queue := rfl
        omega)
     | (have hset := totalWeight_set h
          (⟨rest, (rs.get ⟨i, h⟩).closed, (rs.get ⟨i, h⟩).failed⟩ : Chan (MpscMsg α))
        have happ := totalWeight_append
          (rs.set i ⟨rest, (rs.get ⟨i, h⟩).closed, (rs.get ⟨i, h⟩).failed⟩)
          [⟨q, cl, fl⟩]
        have hcw : chanWeight (rs.get ⟨i, h⟩) =
            1 + (2 + msgListWeight q) + msgListWeight rest := by
          unfold chanWeight
          rw [hq]
          simp only [msgListWeight, msgWeight]
          omega
        have hcw2 : chanWeight
            (⟨rest, (rs.get ⟨i, h⟩).closed, (rs.get ⟨i, h⟩).failed⟩ : Chan (MpscMsg α)) =
            1 + msgListWeight rest := rfl
        have hcw3 : totalWeight [(⟨q, cl, fl⟩ : Chan (MpscMsg α))] =
            1 + msgListWeight q := by
          simp [totalWeight, chanWeight]
        omega))

/-- Embeds `MpscReceiver::poll_recv`: the loop starts at index 0. -/
def mpscPollRecv (rs : List (Chan (MpscMsg α))) :
    Poll (Except RecvError α) × List (Chan (MpscMsg α)) :=
  mpscPollFrom rs 0

/-- A port that is pending at index `j`: empty queue, open, healthy. -/
def PendingAt (rs : List (Chan (MpscMsg α))) (j : Nat) : Prop :=
  ∀ hj : j < rs.length, (rs.get ⟨j, hj⟩).queue = [] ∧
    (rs.get ⟨j, hj⟩).closed = false ∧ (rs.get ⟨j, hj⟩).failed = none

/-- A port that reports closed or failed: drained queue, peer gone or
terminal failure. -/
def Drained (c : Chan (MpscMsg α)) : Prop :=
  c.queue = [] ∧ (c.closed = true ∨ c.failed ≠ none)

theorem mpscPollFrom_data {α : Type} {rs : List (Chan (MpscMsg α))} {i : Nat}
    (h : i < rs.length) {a : α} {rest : List (MpscMsg α)}
    (hq : (rs.get ⟨i, h⟩).queue = MpscMsg.data a :: rest) :
    mpscPollFrom rs i =
      (Poll.ready (Except.ok a),
        rs.set i ⟨rest, (rs.get ⟨i, h⟩).closed, (rs.get ⟨i, h⟩).failed⟩) := by
  rw [mpscPollFrom, dif_pos h]
  split
  · rename_i a' rest' heq
    rw [hq] at heq
    cases heq
    rfl
  · rename_i q cl fl rest' heq
    rw [hq] at heq
    cases heq
  · rename_i heq
    rw [hq] at heq
    cases heq

theorem mpscPollFrom_clone {α : Type} {rs : List (Chan (MpscMsg α))} {i : Nat}
    (h : i < rs.length) {q : List (MpscMsg α)} {cl : Bool}
    {fl : Option ChannelErrorKind} {rest : List (MpscMsg α)}
    (hq : (rs.get ⟨i, h⟩).queue = MpscMsg.clone q cl fl :: rest) :
    mpscPollFrom rs i =
      mpscPollFrom
        (rs.set i ⟨rest, (rs.get ⟨i, h⟩).closed, (rs.get ⟨i, h⟩).failed⟩ ++
          [⟨q, cl, fl⟩]) i := by
  rw [mpscPollFrom, dif_pos h]
  split
  · rename_i a' rest' heq
    rw [hq] at heq
    cases heq
  · rename_i q' cl' fl' rest' heq
    rw [hq] at heq
    cases heq
    rfl
  · rename_i heq
    rw [hq] at heq
    cases heq

theorem mpscPollFrom_remove {α : Type} {rs : List (Chan (MpscMsg α))} {i : Nat}
    (h : i < rs.length) (hd : Drained (rs.get ⟨i, h⟩)) :
    mpscPollFrom rs i = mpscPollFrom (swapRemove rs i) i := by
  obtain ⟨hq, hcf⟩ := hd
  rw [mpscPollFrom, dif_pos h]
  split
  · rename_i a' rest' heq
    rw [hq] at heq
    cases heq
  · rename_i q' cl' fl' rest' heq
    rw [hq] at heq
    cases heq
  · cases hf : (rs.get ⟨i, h⟩).failed with
    | some k => rfl
    | none =>
      have hc : (rs.get ⟨i, h⟩).closed = true := by
        cases hcf with
        | inl hc => exact hc
        | inr hf2 => exact absurd hf hf2
      rw [List.get_eq_getElem] at hc
      simp [hc]

theorem mpscPollFrom_pending {α : Type} {rs : List (Chan (MpscMsg α))} {i : Nat}
    (h : i < rs.length) (hp : PendingAt rs i) :
    mpscPollFrom rs i = mpscPollFrom rs (i + 1) := by
  obtain ⟨hq, hc, hf⟩ := hp h
  rw [mpscPollFrom, dif_pos h]
  split
  · rename_i a' rest' heq
    rw [hq] at heq
    cases heq
  · rename_i q' cl' fl' rest' heq
    rw [hq] at heq
    cases heq
  · rw [hf, hc]
    simp

theorem mpscPollFrom_end {α : Type} {rs : List (Chan (MpscMsg α))} {i : Nat}
    (h : ¬ i < rs.length) :
    mpscPollFrom rs i =
      if rs.isEmpty then (Poll.ready (Except.error RecvError.closed), rs)
      else (Poll.pending, rs) := by
  rw [mpscPollFrom, dif_neg h]

theorem mpscPollFrom_nil {α : Type} (i : Nat) :
    mpscPollFrom ([] : List (Chan (MpscMsg α))) i =
      (Poll.ready (Except.error RecvError.closed), []) := by
  rw [mpscPollFrom_end (by simp)]
  rfl

theorem mpscPollFrom_skip {α : Type} (rs : List (Chan (MpscMsg α))) (i : Nat)
    (hle : i ≤ rs.length) (hpend : ∀ j, j < i → PendingAt rs j) :
    mpscPollFrom rs 0 = mpscPollFrom rs i := by
  induction i with
  | zero => rfl
  | succ n ih =>
    have hn : n < rs.length := by omega
    rw [ih (by omega) (fun j hj => hpend j (by omega))]
    exact mpscPollFrom_pending hn (hpend n (by omega))

theorem mem_swapRemove {β : Type} {rs : List β} {i : Nat} {x : β}
    (hx : x ∈ swapRemove rs i) : x ∈ rs := by
  unfold swapRemove at hx
  cases hlast : rs.getLast? with
  | none =>
    rw [hlast] at hx
    cases hx
  | some last =>
    rw [hlast] at hx
    have hx2 : x ∈ rs.set i last := List.dropLast_subset _ hx
    rcases List.mem_or_eq_of_mem_set hx2 with hmem | heq
    · exact hmem
    · subst heq
      have hrs : rs ≠ [] := by
        intro hc
        rw [hc] at hlast
        exact Option.noConfusion hlast
      rw [List.getLast?_eq_getLast rs hrs] at hlast
      cases hlast
      exact List.getLast_mem hrs

theorem mpsc_drain_aux {α : Type} (n : Nat) :
    ∀ rs : List (Chan (MpscMsg α)), rs.length = n →
      (∀ c ∈ rs, Drained c) →
      mpscPollFrom rs 0 = (Poll.ready (Except.error RecvError.closed), []) := by
  induction n with
  | zero =>
    intro rs hlen _
    have : rs = [] := List.eq_nil_of_length_eq_zero hlen
    subst this
    exact mpscPollFrom_nil 0
  | succ n ih =>
    intro rs hlen hall
    have h0 : 0 < rs.length := by omega
    have hd : Drained (rs.get ⟨0, h0⟩) := hall _ (List.get_mem rs 0 h0)
    rw [mpscPollFrom_remove h0 hd]
    have hne : rs ≠ [] := by
      intro hc
      rw [hc] at hlen
      cases hlen
    refine ih _ ?_ ?_
    · rw [length_swapRemove hne]
      omega
    · intro c hc
      exact hall c (mem_swapRemove hc)

/-- C5: `MpscReceiver::poll_recv` (i) reports `Ready (Err Closed)`
whenever the port set is empty — in particular any set of drained
closed-or-failed ports is fully removed and reports `Closed`; (ii) polls
the ports in order (round-robin over the set): if every port before
index `i` is pending, a data message at the head of port `i`'s queue is
returned with that queue popped; (iii) a port that reports closed or
failed is removed from the set by `swap_remove`. -/
theorem mpsc_poll_recv_spec (α : Type) :
    (∀ rs : List (Chan (MpscMsg α)), (∀ c ∈ rs, Drained c) →
      mpscPollRecv rs = (Poll.ready (Except.error RecvError.closed), [])) ∧
    (∀ (rs : List (Chan (MpscMsg α))) (i : Nat) (h : i < rs.length)
        (a : α) (rest : List (MpscMsg α)),
      (∀ j, j < i → PendingAt rs j) →
      (rs.get ⟨i, h⟩).queue = MpscMsg.data a :: rest →
      mpscPollRecv rs =
        (Poll.ready (Except.ok a),
          rs.set i ⟨rest, (rs.get ⟨i, h⟩).closed, (rs.get ⟨i, h⟩).failed⟩)) ∧
    (∀ (rs : List (Chan (MpscMsg α))) (i : Nat) (h : i < rs.length),
      Drained (rs.get ⟨i, h⟩) →
      mpscPollFrom rs i = mpscPollFrom (swapRemove rs i) i) := by
  refine ⟨?_, ?_, ?_⟩
  · intro rs hall
    exact mpsc_drain_aux rs.length rs rfl hall
  · intro rs i h a rest hpend hq
    unfold mpscPollRecv
    rw [mpscPollFrom_skip rs i (by omega) hpend]
    exact mpscPollFrom_data h hq
  · intro rs i h hd
    exact mpscPollFrom_remove h hd

/-- Witness for C5 at concrete port sets. -/
theorem mpsc_poll_recv_spec_witness :
    (mpscPollRecv ([⟨[], true, none⟩] : List (Chan (MpscMsg Nat))) =
        (Poll.ready (Except.error RecvError.closed), [])) ∧
    (mpscPollRecv
        ([⟨[], false, none⟩, ⟨[MpscMsg.data 7], false, none⟩] :
          List (Chan (MpscMsg Nat))) =
        (Poll.ready (Except.ok 7),
          [⟨[], false, none⟩, ⟨[], false, none⟩])) ∧
    (mpscPollFrom ([⟨[], true, none⟩] : List (Chan (MpscMsg Nat))) 0 =
        mpscPollFrom (swapRemove ([⟨[], true, none⟩] :
          List (Chan (MpscMsg Nat))) 0) 0) := by
  refine ⟨?_, ?_, ?_⟩
  · exact (mpsc_poll_recv_spec Nat).1 _
      (by
        intro c hc
        simp at hc
        subst hc
        exact ⟨rfl, Or.inl rfl⟩)
  · exact (mpsc_poll_recv_spec Nat).2.1 _ 1 (by simp) 7 []
      (by
        intro j hj
        interval_cases j
        intro hlt
        exact ⟨rfl, rfl, rfl⟩)
      rfl
  · exact (mpsc_poll_recv_spec Nat).2.2 [⟨[], true, none⟩] 0 (by simp)
      ⟨rfl, Or.inl rfl⟩

/-- Embeds `MpscReceiver::new`: a receiver with no ports. -/
def MpscReceiver.new {α : Type} : List (Chan (MpscMsg α)) := []

/-- Embeds `MpscReceiver::sender`: allocates a fresh channel pair, pushes
the receiving end onto the port set; the returned sender targets the new
port. -/
def MpscReceiver.sender {α : Type} (rs : List (Chan (MpscMsg α))) :
    List (Chan (MpscMsg α)) :=
  rs ++ [Chan.new]

/-- Embeds `MpscSender::send`: sends a `Data` message on the sender's
port. -/
def MpscSender.send {α : Type} (c : Chan (MpscMsg α)) (v : α) :
    Chan (MpscMsg α) :=
  Chan.send c (MpscMsg.data v)

/-- Embeds `MpscSenderInner::clone`: allocates a fresh channel pair,
sends `Clone(recv)` — the receiving end, initially empty and open — as a
control message over the existing channel, and returns a sender holding
the new port.  The first component is the existing channel with the
control message enqueued; the second is the new sender's port. -/
def MpscSenderInner.clone {α : Type} (c : Chan (MpscMsg α)) :
    Chan (MpscMsg α) × Chan (MpscMsg α) :=
  (Chan.send c (MpscMsg.clone [] false none), Chan.new)

/-- C10: a receiver created by `MpscReceiver::new` has an empty port set
and every `poll_recv` returns `Ready (Err Closed)` (the state returned is
again the empty set); `MpscReceiver::sender` pushes a fresh open port
onto the set, reopening the channel, and a value sent on the returned
sender is subsequently received. -/
theorem mpsc_new_sender_reopen (α : Type) (v : α) :
    (mpscPollRecv (MpscReceiver.new (α := α)) =
        (Poll.ready (Except.error RecvError.closed), MpscReceiver.new)) ∧
    (MpscReceiver.sender (MpscReceiver.new (α := α)) = [Chan.new]) ∧
    (mpscPollRecv [MpscSender.send (Chan.new (α := MpscMsg α)) v] =
        (Poll.ready (Except.ok v), [⟨[], false, none⟩])) := by
  refine ⟨mpscPollFrom_nil 0, rfl, ?_⟩
  unfold mpscPollRecv
  rw [@mpscPollFrom_data α [MpscSender.send Chan.new v] 0 (by simp) v [] rfl]
  rfl

/-- C6: cloning an MPSC sender for serialisation (i) enqueues exactly one
`Clone` control message, carrying a fresh empty open port, onto the
existing channel to the receiver and returns a sender holding the new
port; (ii) the receiver, on dequeueing `Clone(p)`, adds `p` to the end of
its port set and continues polling without yielding it as data; (iii) in
the scenario of `tests::test_mpsc`, draining a port whose queue holds
`Data 5` then a `Clone` carrying `Data 6` yields `5`, then `6`, then
`Closed`. -/
theorem mpsc_clone_protocol (α : Type) :
    (∀ c : Chan (MpscMsg α),
      (MpscSenderInner.clone c).1.queue =
          c.queue ++ [MpscMsg.clone [] false none] ∧
        (MpscSenderInner.clone c).2 = Chan.new) ∧
    (∀ (q rest : List (MpscMsg α)) (cl b : Bool)
        (fl fb : Option ChannelErrorKind)
        (others : List (Chan (MpscMsg α))),
      mpscPollFrom (⟨MpscMsg.clone q cl fl :: rest, b, fb⟩ :: others) 0 =
        mpscPollFrom ((⟨rest, b, fb⟩ :: others) ++ [⟨q, cl, fl⟩]) 0) ∧
    (∀ v w : α,
      (mpscPollRecv
          [(⟨[MpscMsg.data v, MpscMsg.clone [MpscMsg.data w] true none],
            true, none⟩ : Chan (MpscMsg α))]).1 = Poll.ready (Except.ok v) ∧
      (mpscPollRecv
          [(⟨[MpscMsg.clone [MpscMsg.data w] true none], true, none⟩ :
            Chan (MpscMsg α))]).1 = Poll.ready (Except.ok w) ∧
      mpscPollRecv [(⟨[], true, none⟩ : Chan (MpscMsg α))] =
        (Poll.ready (Except.error RecvError.closed), [])) := by
  refine ⟨fun c => ⟨rfl, rfl⟩, ?_, ?_⟩
  · intro q rest cl b fl fb others
    exact @mpscPollFrom_clone α (⟨MpscMsg.clone q cl fl :: rest, b, fb⟩ :: others)
      0 (by simp) q cl fl rest rfl
  · intro v w
    have hclosed : mpscPollRecv [(⟨[], true, none⟩ : Chan (MpscMsg α))] =
        (Poll.ready (Except.error RecvError.closed), []) := by
      unfold mpscPollRecv
      rw [@mpscPollFrom_remove α [⟨[], true, none⟩] 0 (by simp) ⟨rfl, Or.inl rfl⟩]
      exact mpscPollFrom_nil 0
    have hclone : mpscPollRecv
        [(⟨[MpscMsg.clone [MpscMsg.data w] true none], true, none⟩ :
          Chan (MpscMsg α))] =
        (Poll.ready (Except.ok w), [⟨[], true, none⟩]) := by
      unfold mpscPollRecv
      rw [@mpscPollFrom_clone α
        [⟨[MpscMsg.clone [MpscMsg.data w] true none], true, none⟩] 0 (by simp)
        [MpscMsg.data w] true none [] rfl]
      show mpscPollFrom
        [⟨[], true, none⟩, ⟨[MpscMsg.data w], true, none⟩] 0 = _
      rw [@mpscPollFrom_remove α
        [⟨[], true, none⟩, ⟨[MpscMsg.data w], true, none⟩] 0 (by simp)
        ⟨rfl, Or.inl rfl⟩]
      show mpscPollFrom [(⟨[MpscMsg.data w], true, none⟩ : Chan (MpscMsg α))] 0 = _
      rw [@mpscPollFrom_data α [⟨[MpscMsg.data w], true, none⟩] 0 (by simp)
        w [] rfl]
      rfl
    refine ⟨?_, ?_, hclosed⟩
    · unfold mpscPollRecv
      rw [@mpscPollFrom_data α
        [⟨[MpscMsg.data v, MpscMsg.clone [MpscMsg.data w] true none], true, none⟩]
        0 (by simp) v [MpscMsg.clone [MpscMsg.data w] true none] rfl]
    · rw [hclone]

/-- Witness for C6 at a concrete clone. -/
theorem mpsc_clone_protocol_witness :
    (MpscSenderInner.clone (⟨[MpscMsg.data 5], false, none⟩ :
        Chan (MpscMsg Nat))).1.queue =
      [MpscMsg.data 5, MpscMsg.clone [] false none] :=
  ((mpsc_clone_protocol Nat).1 ⟨[MpscMsg.data 5], false, none⟩).1

/-- Embeds `impl Stream for Receiver`: `poll_next` maps `Ok((t,))` to
`Some t`, and both `Err(Closed)` and `Err(Error(_))` (after logging) to
`None`. -/
def receiverPollNext {α : Type} (c : Chan α) : Poll (Option α) × Chan α :=
  match Chan.pollRecv c with
  | (Poll.ready (Except.ok t), c2) => (Poll.ready (some t), c2)
  | (Poll.ready (Except.error RecvError.closed), c2) => (Poll.ready none, c2)
  | (Poll.ready (Except.error (RecvError.error _)), c2) => (Poll.ready none, c2)
  | (Poll.pending, c2) => (Poll.pending, c2)

/-- Embeds `impl Stream for MpscReceiver`: `poll_next` returns
`poll_recv`'s result with `.ok()` applied, collapsing both error kinds to
end-of-stream. -/
def mpscPollNext {α : Type} (rs : List (Chan (MpscMsg α))) :
    Poll (Option α) × List (Chan (MpscMsg α)) :=
  match mpscPollRecv rs with
  | (Poll.ready (Except.ok t), rs2) => (Poll.ready (some t), rs2)
  | (Poll.ready (Except.error _), rs2) => (Poll.ready none, rs2)
  | (Poll.pending, rs2) => (Poll.pending, rs2)

/-- C8: for a `Receiver` used as a stream, `poll_next` is ready with
`Some t` exactly when `poll_recv` is ready with `Ok t`; it is ready with
`None` both when `poll_recv` reports `Closed` and when it reports a
channel error, so the two cases are indistinguishable to the stream
consumer (both map to the same end-of-stream result); likewise for the
MPSC receiver's stream implementation. -/
theorem stream_poll_next_spec (α : Type) :
    (∀ (c c2 : Chan α) (t : α),
      receiverPollNext c = (Poll.ready (some t), c2) ↔
        Chan.pollRecv c = (Poll.ready (Except.ok t), c2)) ∧
    (∀ (c c2 : Chan α),
      Chan.pollRecv c = (Poll.ready (Except.error RecvError.closed), c2) →
        receiverPollNext c = (Poll.ready none, c2)) ∧
    (∀ (c c2 : Chan α) (k : ChannelErrorKind),
      Chan.pollRecv c = (Poll.ready (Except.error (RecvError.error k)), c2) →
        receiverPollNext c = (Poll.ready none, c2)) ∧
    (∀ (rs rs2 : List (Chan (MpscMsg α))) (t : α),
      mpscPollNext rs = (Poll.ready (some t), rs2) ↔
        mpscPollRecv rs = (Poll.ready (Except.ok t), rs2)) := by
  refine ⟨?_, ?_, ?_, ?_⟩
  · intro c c2 t
    unfold receiverPollNext
    constructor
    · intro h
      split at h
      · rename_i t' c' heq
        cases h
        exact heq
      · cases h
      · cases h
      · cases h
    · intro h
      rw [h]
  · intro c c2 h
    unfold receiverPollNext
    rw [h]
  · intro c c2 k h
    unfold receiverPollNext
    rw [h]
  · intro rs rs2 t
    unfold mpscPollNext
    constructor
    · intro h
      split at h
      · rename_i t' rs' heq
        cases h
        exact heq
      · cases h
      · cases h
    · intro h
      rw [h]

/-- Witness for C8: a closed channel and a failed channel both stream to
end-of-stream, and a queued value streams as itself. -/
theorem stream_poll_next_spec_witness :
    (receiverPollNext (⟨[], true, none⟩ : Chan Nat) =
        (Poll.ready none, ⟨[], true, none⟩)) ∧
    (receiverPollNext (⟨[], false, some ChannelErrorKind.corruption⟩ : Chan Nat) =
        (Poll.ready none, ⟨[], false, some ChannelErrorKind.corruption⟩)) ∧
    (receiverPollNext (⟨[3], false, none⟩ : Chan Nat) =
        (Poll.ready (some 3), ⟨[], false, none⟩)) :=
  ⟨(stream_poll_next_spec Nat).2.1 _ _ rfl,
    (stream_poll_next_spec Nat).2.2.1 _ _ ChannelErrorKind.corruption rfl,
    ((stream_poll_next_spec Nat).1 _ _ 3).mpr rfl⟩

/-! ## Inspect service messages (`inspect_proto/src/lib.rs`)

`InspectResponse2` (src lines 13-19) wraps the structural `inspect::Node`
in a message with field 1 and is documented as having an encoding
equivalent to the prost-generated `InspectResponse`.  Both `inspect` and
the generated code are outside the excerpt; per spec sections 4.9 and 6
we model the structural node tree (directory / value / unevaluated /
failed, values signed / unsigned / bool / string / bytes, sensitivity in
{Unspecified, Safe, Sensitive}) and the protobuf-direct representation
(messages with optional fields and oneofs as prost generates them), with
equal field numbers: a mesh tagged union is a nested message with one
field per variant, which corresponds to a proto message wrapping a
oneof; scalar variants are transparent. -/

/-- Modelled from the spec: sensitivity levels. -/
inductive SensitivityLevel : Type where
  | unspecified
  | safe
  | sensitive
deriving DecidableEq, Repr

/-- The wire discriminant of a sensitivity level. -/
def sensDisc : SensitivityLevel → Nat
  | .unspecified => 0
  | .safe => 1
  | .sensitive => 2

/-- The sensitivity level of a wire discriminant. -/
def sensOfNat? (n : Nat) : Option SensitivityLevel :=
  match n with
  | 0 => some SensitivityLevel.unspecified
  | 1 => some SensitivityLevel.safe
  | 2 => some SensitivityLevel.sensitive
  | _ => none

theorem sensOfNat?_sensDisc (sl : SensitivityLevel) :
    sensOfNat? (sensDisc sl) = some sl := by
  cases sl <;> rfl

/-- Modelled from the spec: zigzag encoding of a signed value (the
`sint64` wire form). -/
def zigzag (i : Int) : Nat :=
  if 0 ≤ i then 2 * i.toNat else 2 * (-i).toNat - 1

/-- Modelled from the spec: zigzag decoding. -/
def unzigzag (n : Nat) : Int :=
  if n % 2 = 0 then (n / 2 : Nat) else -((n / 2 : Nat) + 1)

theorem unzigzag_zigzag (i : Int) : unzigzag (zigzag i) = i := by
  unfold zigzag unzigzag
  by_cases h : 0 ≤ i
  · rw [if_pos h]
    have h2 : 2 * i.toNat % 2 = 0 := by omega
    rw [if_pos h2]
    have h3 : 2 * i.toNat / 2 = i.toNat := by omega
    rw [h3]
    simp [Int.toNat_of_nonneg h]
  · rw [if_neg h]
    have hk : 1 ≤ (-i).toNat := by omega
    have h2 : ¬ (2 * (-i).toNat - 1) % 2 = 0 := by omega
    rw [if_neg h2]
    have h3 : (2 * (-i).toNat - 1) / 2 = (-i).toNat - 1 := by omega
    rw [h3]
    have h4 : ((-i).toNat : Int) = -i := Int.toNat_of_nonneg (by omega)
    have h5 : (((-i).toNat - 1 : Nat) : Int) = -i - 1 := by omega
    rw [h5]
    omega

/-- Modelled from the spec: the value payloads: signed, unsigned,
boolean, string, bytes. -/
inductive ValueKind : Type where
  | signed (i : Int)
  | unsigned (n : Nat)
  | bool (b : Bool)
  | string (s : String)
  | bytes (bs : List Nat)
deriving DecidableEq, Repr

/-- Modelled from the spec: inspect error variants, including
`update(message)`. -/
inductive IError : Type where
  | update (msg : String)
deriving DecidableEq, Repr

mutual

/-- Modelled from the spec: the structural `inspect::Node`: directory,
value, unevaluated, or failed. -/
inductive INode : Type where
  | dir (entries : List IEntry)
  | value (v : ValueKind)
  | unevaluated
  | failed (e : IError)

/-- Modelled from the spec: a directory entry: name, node, optional
sensitivity. -/
inductive IEntry : Type where
  | mk (name : String) (node : INode) (sensitivity : Option SensitivityLevel)

end

/-- Embeds `InspectResponse2` (src): the structural response, field 1
holding the node. -/
structure InspectResponse2 : Type where
  result : INode

/-- Modelled from the spec: the prost-generated value message: a oneof
over the scalar kinds, possibly unset. -/
inductive PValueKind : Type where
  | signed (i : Int)
  | unsigned (n : Nat)
  | bool (b : Bool)
  | string (s : String)
  | bytes (bs : List Nat)
deriving DecidableEq, Repr

/-- Modelled from the spec: the prost-generated error message's oneof. -/
inductive PErrorKind : Type where
  | update (msg : String)
deriving DecidableEq, Repr

mutual

/-- Modelled from the spec: the prost-generated `Node` message: a oneof
over the four node kinds, possibly unset. -/
inductive PNode : Type where
  | mk (kind : Option PNodeKind)

/-- Modelled from the spec: the prost-generated oneof cases of `Node`:
a `Dir` wrapper message, a `Value` message, an empty message, an `Error`
message. -/
inductive PNodeKind : Type where
  | dir (entries : List PEntry)
  | value (kind : Option PValueKind)
  | unevaluated
  | failed (kind : Option PErrorKind)

/-- Modelled from the spec: the prost-generated `Entry` message:
proto3 string name, optional node message, optional sensitivity enum. -/
inductive PEntry : Type where
  | mk (name : String) (node : Option PNode) (sensitivity : Option SensitivityLevel)

end

/-- Modelled from the spec: the prost-generated `InspectResponse`:
optional node message in field 1. -/
structure InspectResponse : Type where
  result : Option PNode

/-- Modelled from the spec: the mesh value message: one transparent
field per variant (field number = discriminant), written even when
default. -/
def encodeValueMsg : ValueKind → List Nat
  | .signed i => encVarintField 1 (zigzag i)
  | .unsigned n => encVarintField 2 n
  | .bool b => encVarintField 3 (if b then 1 else 0)
  | .string s => encLenField 4 (encodeStringPayload s)
  | .bytes bs => encLenField 5 bs

/-- Modelled from the spec: the mesh error message: one transparent
field per variant. -/
def encodeIErrMsg : IError → List Nat
  | .update msg => encLenField 1 (encodeStringPayload msg)

mutual

/-- Modelled from the spec: the mesh `Node` message: one field per
variant, always written; the directory variant's payload is a message
holding the repeated entries in field 1. -/
def encodeNodeMsg : INode → List Nat
  | .dir entries => encLenField 1 (encodeEntryList entries)
  | .value v => encLenField 2 (encodeValueMsg v)
  | .unevaluated => encLenField 3 []
  | .failed e => encLenField 4 (encodeIErrMsg e)

/-- The repeated entries of a directory payload, field 1 each. -/
def encodeEntryList : List IEntry → List Nat
  | [] => []
  | e :: t => encLenField 1 (encodeEntryMsg e) ++ encodeEntryList t

/-- Modelled from the spec: the mesh `Entry` message: name (field 1,
default omitted), node (field 2, always written — a node message is
never empty), sensitivity (field 3, written when present). -/
def encodeEntryMsg : IEntry → List Nat
  | .mk name node sens =>
    (if name = "" then [] else encLenField 1 (encodeStringPayload name)) ++
    encLenField 2 (encodeNodeMsg node) ++
    (match sens with
      | none => []
      | some sl => encVarintField 3 (sensDisc sl))

end

/-- Embeds `InspectResponse2`'s encoding: the node in field 1 (always
written — a node message is never empty). -/
def encodeInspectResponse2 (r : InspectResponse2) : List Nat :=
  encLenField 1 (encodeNodeMsg r.result)

/-- Modelled from the spec: the prost value message: the set oneof field,
written with explicit presence. -/
def encodePValueMsg : Option PValueKind → List Nat
  | none => []
  | some (.signed i) => encVarintField 1 (zigzag i)
  | some (.unsigned n) => encVarintField 2 n
  | some (.bool b) => encVarintField 3 (if b then 1 else 0)
  | some (.string s) => encLenField 4 (encodeStringPayload s)
  | some (.bytes bs) => encLenField 5 bs

/-- Modelled from the spec: the prost error message. -/
def encodePErrMsg : Option PErrorKind → List Nat
  | none => []
  | some (.update msg) => encLenField 1 (encodeStringPayload msg)

mutual

/-- Modelled from the spec: the prost `Node` message: the set oneof
field, written with explicit presence. -/
def encodePNodeMsg : PNode → List Nat
  | .mk none => []
  | .mk (some (.dir entries)) => encLenField 1 (encodePEntryList entries)
  | .mk (some (.value k)) => encLenField 2 (encodePValueMsg k)
  | .mk (some .unevaluated) => encLenField 3 []
  | .mk (some (.failed k)) => encLenField 4 (encodePErrMsg k)

/-- The repeated entries of a prost `Dir` message, field 1 each. -/
def encodePEntryList : List PEntry → List Nat
  | [] => []
  | e :: t => encLenField 1 (encodePEntryMsg e) ++ encodePEntryList t

/-- Modelled from the spec: the prost `Entry` message: proto3 string
(default omitted), optional node message (written when present),
optional enum (written when present). -/
def encodePEntryMsg : PEntry → List Nat
  | .mk name node sens =>
    (if name = "" then [] else encLenField 1 (encodeStringPayload name)) ++
    (match node with
      | none => []
      | some n => encLenField 2 (encodePNodeMsg n)) ++
    (match sens with
      | none => []
      | some sl => encVarintField 3 (sensDisc sl))

end

/-- Modelled from the spec: the prost `InspectResponse` encoding:
optional node message in field 1. -/
def encodeInspectResponse (r : InspectResponse) : List Nat :=
  match r.result with
  | none => []
  | some p => encLenField 1 (encodePNodeMsg p)

/-- The value-kind correspondence between the two representations. -/
def toPValueKind : ValueKind → PValueKind
  | .signed i => .signed i
  | .unsigned n => .unsigned n
  | .bool b => .bool b
  | .string s => .string s
  | .bytes bs => .bytes bs

mutual

/-- The node correspondence: structural to protobuf-direct. -/
def toPNode : INode → PNode
  | .dir entries => .mk (some (.dir (toPEntryList entries)))
  | .value v => .mk (some (.value (some (toPValueKind v))))
  | .unevaluated => .mk (some .unevaluated)
  | .failed (.update msg) => .mk (some (.failed (some (.update msg))))

def toPEntryList : List IEntry → List PEntry
  | [] => []
  | e :: t => toPEntry e :: toPEntryList t

def toPEntry : IEntry → PEntry
  | .mk name node sens => .mk name (some (toPNode node)) sens

end

mutual

/-- Byte equality of the two encodings on corresponding nodes. -/
theorem encodePNodeMsg_toPNode (n : INode) :
    encodePNodeMsg (toPNode n) = encodeNodeMsg n := by
  cases n with
  | dir entries =>
    show encLenField 1 (encodePEntryList (toPEntryList entries)) = _
    rw [encodePEntryList_toPEntryList entries]
    rfl
  | value v => cases v <;> rfl
  | unevaluated => rfl
  | failed e => cases e <;> rfl

theorem encodePEntryList_toPEntryList (l : List IEntry) :
    encodePEntryList (toPEntryList l) = encodeEntryList l := by
  cases l with
  | nil => rfl
  | cons e t =>
    show encLenField 1 (encodePEntryMsg (toPEntry e)) ++
        encodePEntryList (toPEntryList t) = _
    rw [encodePEntryMsg_toPEntry e, encodePEntryList_toPEntryList t]
    rfl

theorem encodePEntryMsg_toPEntry (e : IEntry) :
    encodePEntryMsg (toPEntry e) = encodeEntryMsg e := by
  cases e with
  | mk name node sens =>
    show (if name = "" then [] else encLenField 1 (encodeStringPayload name)) ++
        encLenField 2 (encodePNodeMsg (toPNode node)) ++
        (match sens with
          | none => []
          | some sl => encVarintField 3 (sensDisc sl)) = _
    rw [encodePNodeMsg_toPNode node]
    rfl

end

/-- Modelled from the spec: decodes the mesh value message's fields;
the last present variant wins. -/
def decodeValueTokens (acc : Option ValueKind) :
    List (Nat × WireVal) → Option (Option ValueKind)
  | [] => some acc
  | (1, WireVal.varint n) :: ts =>
    decodeValueTokens (some (ValueKind.signed (unzigzag n))) ts
  | (2, WireVal.varint n) :: ts =>
    decodeValueTokens (some (ValueKind.unsigned n)) ts
  | (3, WireVal.varint n) :: ts =>
    decodeValueTokens (some (ValueKind.bool (n ≠ 0))) ts
  | (4, WireVal.lenDelim pb) :: ts =>
    (decodeString pb).bind fun s =>
      decodeValueTokens (some (ValueKind.string s)) ts
  | (5, WireVal.lenDelim pb) :: ts =>
    decodeValueTokens (some (ValueKind.bytes pb)) ts
  | (1, _) :: _ => none
  | (2, _) :: _ => none
  | (3, _) :: _ => none
  | (4, _) :: _ => none
  | (5, _) :: _ => none
  | _ :: ts => decodeValueTokens acc ts

/-- Modelled from the spec: decodes a mesh value message; a variant must
be present. -/
def decodeValueMsgD (l : List Nat) : Option ValueKind :=
  ((parseFields l).bind (decodeValueTokens none)).bind fun o => o

/-- Modelled from the spec: decodes the mesh error message's fields. -/
def decodeIErrTokens (acc : Option IError) :
    List (Nat × WireVal) → Option (Option IError)
  | [] => some acc
  | (1, WireVal.lenDelim pb) :: ts =>
    (decodeString pb).bind fun msg =>
      decodeIErrTokens (some (IError.update msg)) ts
  | (1, _) :: _ => none
  | _ :: ts => decodeIErrTokens acc ts

/-- Modelled from the spec: decodes a mesh error message; a variant must
be present. -/
def decodeIErrMsgD (l : List Nat) : Option IError :=
  ((parseFields l).bind (decodeIErrTokens none)).bind fun o => o

/-- Modelled from the spec: decodes the prost value message; an unset
oneof is allowed. -/
def decodePValueTokens (acc : Option PValueKind) :
    List (Nat × WireVal) → Option (Option PValueKind)
  | [] => some acc
  | (1, WireVal.varint n) :: ts =>
    decodePValueTokens (some (PValueKind.signed (unzigzag n))) ts
  | (2, WireVal.varint n) :: ts =>
    decodePValueTokens (some (PValueKind.unsigned n)) ts
  | (3, WireVal.varint n) :: ts =>
    decodePValueTokens (some (PValueKind.bool (n ≠ 0))) ts
  | (4, WireVal.lenDelim pb) :: ts =>
    (decodeString pb).bind fun s =>
      decodePValueTokens (some (PValueKind.string s)) ts
  | (5, WireVal.lenDelim pb) :: ts =>
    decodePValueTokens (some (PValueKind.bytes pb)) ts
  | (1, _) :: _ => none
  | (2, _) :: _ => none
  | (3, _) :: _ => none
  | (4, _) :: _ => none
  | (5, _) :: _ => none
  | _ :: ts => decodePValueTokens acc ts

/-- Modelled from the spec: decodes a prost value message. -/
def decodePValueMsgD (l : List Nat) : Option (Option PValueKind) :=
  (parseFields l).bind (decodePValueTokens none)

/-- Modelled from the spec: decodes the prost error message. -/
def decodePErrTokens (acc : Option PErrorKind) :
    List (Nat × WireVal) → Option (Option PErrorKind)
  | [] => some acc
  | (1, WireVal.lenDelim pb) :: ts =>
    (decodeString pb).bind fun msg =>
      decodePErrTokens (some (PErrorKind.update msg)) ts
  | (1, _) :: _ => none
  | _ :: ts => decodePErrTokens acc ts

/-- Modelled from the spec: decodes a prost error message. -/
def decodePErrMsgD (l : List Nat) : Option (Option PErrorKind) :=
  (parseFields l).bind (decodePErrTokens none)

mutual

/-- Modelled from the spec: decodes a mesh node message within a nesting
budget `fuel`; a variant must be present. -/
def decodeNodeMsgD : Nat → List Nat → Option INode
  | 0, _ => none
  | fuel + 1, l =>
    ((parseFields l).bind (decodeNodeTokens fuel none)).bind fun o => o
  termination_by f l => (f, 0, 0)

/-- Decodes the mesh node message's variant fields; the last present
variant wins. -/
def decodeNodeTokens : Nat → Option INode → List (Nat × WireVal) →
    Option (Option INode)
  | _, acc, [] => some acc
  | fuel, _, (1, WireVal.lenDelim pb) :: ts =>
    (decodeDirPayload fuel pb).bind fun entries =>
      decodeNodeTokens fuel (some (INode.dir entries)) ts
  | fuel, _, (2, WireVal.lenDelim pb) :: ts =>
    (decodeValueMsgD pb).bind fun v =>
      decodeNodeTokens fuel (some (INode.value v)) ts
  | fuel, _, (3, WireVal.lenDelim pb) :: ts =>
    (parseFields pb).bind fun _ =>
      decodeNodeTokens fuel (some INode.unevaluated) ts
  | fuel, _, (4, WireVal.lenDelim pb) :: ts =>
    (decodeIErrMsgD pb).bind fun e =>
      decodeNodeTokens fuel (some (INode.failed e)) ts
  | _, _, (1, _) :: _ => none
  | _, _, (2, _) :: _ => none
  | _, _, (3, _) :: _ => none
  | _, _, (4, _) :: _ => none
  | fuel, acc, _ :: ts => decodeNodeTokens fuel acc ts
  termination_by f acc ts => (f, 5, ts.length)

/-- Decodes the directory variant's payload message. -/
def decodeDirPayload : Nat → List Nat → Option (List IEntry)
  | fuel, l => (parseFields l).bind (decodeDirTokens fuel [])
  termination_by f l => (f, 4, 0)

/-- Decodes the repeated entry fields of a directory payload,
concatenating. -/
def decodeDirTokens : Nat → List IEntry → List (Nat × WireVal) →
    Option (List IEntry)
  | _, acc, [] => some acc
  | fuel, acc, (1, WireVal.lenDelim pb) :: ts =>
    (decodeEntryMsgD fuel pb).bind fun e =>
      decodeDirTokens fuel (acc ++ [e]) ts
  | _, _, (1, _) :: _ => none
  | fuel, acc, _ :: ts => decodeDirTokens fuel acc ts
  termination_by f acc ts => (f, 3, ts.length)

/-- Decodes a mesh entry message; the node field is required. -/
def decodeEntryMsgD : Nat → List Nat → Option IEntry
  | fuel, l =>
    ((parseFields l).bind (decodeEntryTokens fuel "" none none)).bind
      fun r => r.2.1.map fun nd => IEntry.mk r.1 nd r.2.2
  termination_by f l => (f, 2, 0)

/-- Decodes the fields of a mesh entry message. -/
def decodeEntryTokens : Nat → String → Option INode →
    Option SensitivityLevel → List (Nat × WireVal) →
    Option (String × Option INode × Option SensitivityLevel)
  | _, nm, nd, sn, [] => some (nm, nd, sn)
  | fuel, _, nd, sn, (1, WireVal.lenDelim pb) :: ts =>
    (decodeString pb).bind fun s => decodeEntryTokens fuel s nd sn ts
  | fuel, nm, _, sn, (2, WireVal.lenDelim pb) :: ts =>
    (decodeNodeMsgD fuel pb).bind fun n =>
      decodeEntryTokens fuel nm (some n) sn ts
  | fuel, nm, nd, _, (3, WireVal.varint v) :: ts =>
    (sensOfNat? v).bind fun sl => decodeEntryTokens fuel nm nd (some sl) ts
  | _, _, _, _, (1, _) :: _ => none
  | _, _, _, _, (2, _) :: _ => none
  | _, _, _, _, (3, _) :: _ => none
  | fuel, nm, nd, sn, _ :: ts => decodeEntryTokens fuel nm nd sn ts
  termination_by f nm nd sn ts => (f, 1, ts.length)

end

mutual

/-- Modelled from the spec: decodes a prost node message within a
nesting budget; an unset oneof is allowed. -/
def decodePNodeMsgD : Nat → List Nat → Option PNode
  | 0, _ => none
  | fuel + 1, l =>
    ((parseFields l).bind (decodePNodeTokens fuel none)).map PNode.mk
  termination_by f l => (f, 0, 0)

/-- Decodes the prost node message's oneof fields; the last present
case wins. -/
def decodePNodeTokens : Nat → Option PNodeKind → List (Nat × WireVal) →
    Option (Option PNodeKind)
  | _, acc, [] => some acc
  | fuel, _, (1, WireVal.lenDelim pb) :: ts =>
    (decodePDirPayload fuel pb).bind fun entries =>
      decodePNodeTokens fuel (some (PNodeKind.dir entries)) ts
  | fuel, _, (2, WireVal.lenDelim pb) :: ts =>
    (decodePValueMsgD pb).bind fun v =>
      decodePNodeTokens fuel (some (PNodeKind.value v)) ts
  | fuel, _, (3, WireVal.lenDelim pb) :: ts =>
    (parseFields pb).bind fun _ =>
      decodePNodeTokens fuel (some PNodeKind.unevaluated) ts
  | fuel, _, (4, WireVal.lenDelim pb) :: ts =>
    (decodePErrMsgD pb).bind fun e =>
      decodePNodeTokens fuel (some (PNodeKind.failed e)) ts
  | _, _, (1, _) :: _ => none
  | _, _, (2, _) :: _ => none
  | _, _, (3, _) :: _ => none
  | _, _, (4, _) :: _ => none
  | fuel, acc, _ :: ts => decodePNodeTokens fuel acc ts
  termination_by f acc ts => (f, 5, ts.length)

/-- Decodes the prost `Dir` message. -/
def decodePDirPayload : Nat → List Nat → Option (List PEntry)
  | fuel, l => (parseFields l).bind (decodePDirTokens fuel [])
  termination_by f l => (f, 4, 0)

/-- Decodes the repeated entry fields of a prost `Dir` message. -/
def decodePDirTokens : Nat → List PEntry → List (Nat × WireVal) →
    Option (List PEntry)
  | _, acc, [] => some acc
  | fuel, acc, (1, WireVal.lenDelim pb) :: ts =>
    (decodePEntryMsgD fuel pb).bind fun e =>
      decodePDirTokens fuel (acc ++ [e]) ts
  | _, _, (1, _) :: _ => none
  | fuel, acc, _ :: ts => decodePDirTokens fuel acc ts
  termination_by f acc ts => (f, 3, ts.length)

/-- Decodes a prost entry message; all fields optional. -/
def decodePEntryMsgD : Nat → List Nat → Option PEntry
  | fuel, l =>
    ((parseFields l).bind (decodePEntryTokens fuel "" none none)).map
      fun r => PEntry.mk r.1 r.2.1 r.2.2
  termination_by f l => (f, 2, 0)

/-- Decodes the fields of a prost entry message. -/
def decodePEntryTokens : Nat → String → Option PNode →
    Option SensitivityLevel → List (Nat × WireVal) →
    Option (String × Option PNode × Option SensitivityLevel)
  | _, nm, nd, sn, [] => some (nm, nd, sn)
  | fuel, _, nd, sn, (1, WireVal.lenDelim pb) :: ts =>
    (decodeString pb).bind fun s => decodePEntryTokens fuel s nd sn ts
  | fuel, nm, _, sn, (2, WireVal.lenDelim pb) :: ts =>
    (decodePNodeMsgD fuel pb).bind fun n =>
      decodePEntryTokens fuel nm (some n) sn ts
  | fuel, nm, nd, _, (3, WireVal.varint v) :: ts =>
    (sensOfNat? v).bind fun sl =>
      decodePEntryTokens fuel nm nd (some sl) ts
  | _, _, _, _, (1, _) :: _ => none
  | _, _, _, _, (2, _) :: _ => none
  | _, _, _, _, (3, _) :: _ => none
  | fuel, nm, nd, sn, _ :: ts => decodePEntryTokens fuel nm nd sn ts
  termination_by f nm nd sn ts => (f, 1, ts.length)

end

mutual

/-- Nesting budget needed to decode a node. -/
def nodeSize : INode → Nat
  | .dir entries => 1 + entryListSize entries
  | .value _ => 1
  | .unevaluated => 1
  | .failed _ => 1

def entryListSize : List IEntry → Nat
  | [] => 0
  | e :: t => entrySize e + entryListSize t

def entrySize : IEntry → Nat
  | .mk _ nd _ => nodeSize nd

end

mutual

/-- Nesting budget needed to decode a prost node. -/
def pnodeSize : PNode → Nat
  | .mk none => 1
  | .mk (some (.dir entries)) => 1 + pentryListSize entries
  | .mk (some (.value _)) => 1
  | .mk (some .unevaluated) => 1
  | .mk (some (.failed _)) => 1

def pentryListSize : List PEntry → Nat
  | [] => 0
  | e :: t => pentrySize e + pentryListSize t

def pentrySize : PEntry → Nat
  | .mk _ none _ => 1
  | .mk _ (some n) _ => pnodeSize n

end

mutual

/-- The two size measures agree across the correspondence. -/
theorem pnodeSize_toPNode (n : INode) : pnodeSize (toPNode n) = nodeSize n := by
  cases n with
  | dir entries =>
    show 1 + pentryListSize (toPEntryList entries) = 1 + entryListSize entries
    rw [pentryListSize_toPEntryList entries]
  | value v => rfl
  | unevaluated => rfl
  | failed e => cases e <;> rfl

theorem pentryListSize_toPEntryList (l : List IEntry) :
    pentryListSize (toPEntryList l) = entryListSize l := by
  cases l with
  | nil => rfl
  | cons e t =>
    show pentrySize (toPEntry e) + pentryListSize (toPEntryList t) = _
    rw [pentrySize_toPEntry e, pentryListSize_toPEntryList t]
    rfl

theorem pentrySize_toPEntry (e : IEntry) :
    pentrySize (toPEntry e) = entrySize e := by
  cases e with
  | mk name nd sens =>
    show pnodeSize (toPNode nd) = nodeSize nd
    exact pnodeSize_toPNode nd

end

/-- Tokens of the repeated entries of a mesh directory payload. -/
theorem parsesTo_encodeEntryList (l : List IEntry) :
    ParsesTo (encodeEntryList l)
      (l.map fun e => (1, WireVal.lenDelim (encodeEntryMsg e))) := by
  induction l with
  | nil => simpa using ParsesTo.nil
  | cons e t ih =>
    have := ParsesTo.append (ParsesTo.lenField 1 (encodeEntryMsg e)) ih
    simpa [encodeEntryList] using this

/-- Tokens of the repeated entries of a prost `Dir` message. -/
theorem parsesTo_encodePEntryList (l : List PEntry) :
    ParsesTo (encodePEntryList l)
      (l.map fun e => (1, WireVal.lenDelim (encodePEntryMsg e))) := by
  induction l with
  | nil => simpa using ParsesTo.nil
  | cons e t ih =>
    have := ParsesTo.append (ParsesTo.lenField 1 (encodePEntryMsg e)) ih
    simpa [encodePEntryList] using this

/-- Round trip for the mesh value message. -/
theorem decodeValueMsgD_encode (v : ValueKind) :
    decodeValueMsgD (encodeValueMsg v) = some v := by
  cases v with
  | signed i =>
    unfold decodeValueMsgD encodeValueMsg
    rw [(ParsesTo.varintField 1 (zigzag i)).parseFields]
    simp [decodeValueTokens, unzigzag_zigzag]
  | unsigned n =>
    unfold decodeValueMsgD encodeValueMsg
    rw [(ParsesTo.varintField 2 n).parseFields]
    simp [decodeValueTokens]
  | bool b =>
    unfold decodeValueMsgD encodeValueMsg
    rw [(ParsesTo.varintField 3 (if b then 1 else 0)).parseFields]
    cases b <;> simp [decodeValueTokens]
  | string sv =>
    unfold decodeValueMsgD encodeValueMsg
    rw [(ParsesTo.lenField 4 (encodeStringPayload sv)).parseFields]
    simp [decodeValueTokens, decodeString_encode]
  | bytes bs =>
    unfold decodeValueMsgD encodeValueMsg
    rw [(ParsesTo.lenField 5 bs).parseFields]
    simp [decodeValueTokens]

/-- Round trip for the mesh error message. -/
theorem decodeIErrMsgD_encode (e : IError) :
    decodeIErrMsgD (encodeIErrMsg e) = some e := by
  cases e with
  | update msg =>
    unfold decodeIErrMsgD encodeIErrMsg
    rw [(ParsesTo.lenField 1 (encodeStringPayload msg)).parseFields]
    simp [decodeIErrTokens, decodeString_encode]

/-- Round trip for the prost value message, unset oneof included. -/
theorem decodePValueMsgD_encode (k : Option PValueKind) :
    decodePValueMsgD (encodePValueMsg k) = some k := by
  cases k with
  | none =>
    unfold decodePValueMsgD encodePValueMsg
    rw [parseFields_nil]
    rfl
  | some vk =>
    cases vk with
    | signed i =>
      unfold decodePValueMsgD encodePValueMsg
      rw [(ParsesTo.varintField 1 (zigzag i)).parseFields]
      simp [decodePValueTokens, unzigzag_zigzag]
    | unsigned n =>
      unfold decodePValueMsgD encodePValueMsg
      rw [(ParsesTo.varintField 2 n).parseFields]
      simp [decodePValueTokens]
    | bool b =>
      unfold decodePValueMsgD encodePValueMsg
      rw [(ParsesTo.varintField 3 (if b then 1 else 0)).parseFields]
      cases b <;> simp [decodePValueTokens]
    | string sv =>
      unfold decodePValueMsgD encodePValueMsg
      rw [(ParsesTo.lenField 4 (encodeStringPayload sv)).parseFields]
      simp [decodePValueTokens, decodeString_encode]
    | bytes bs =>
      unfold decodePValueMsgD encodePValueMsg
      rw [(ParsesTo.lenField 5 bs).parseFields]
      simp [decodePValueTokens]

/-- Round trip for the prost error message, unset oneof included. -/
theorem decodePErrMsgD_encode (k : Option PErrorKind) :
    decodePErrMsgD (encodePErrMsg k) = some k := by
  cases k with
  | none =>
    unfold decodePErrMsgD encodePErrMsg
    rw [parseFields_nil]
    rfl
  | some e =>
    cases e with
    | update msg =>
      unfold decodePErrMsgD encodePErrMsg
      rw [(ParsesTo.lenField 1 (encodeStringPayload msg)).parseFields]
      simp [decodePErrTokens, decodeString_encode]

mutual

/-- The mesh node round trip within a sufficient nesting budget. -/
theorem decodeNode_roundtrip (n : INode) (f : Nat) (hf : nodeSize n ≤ f) :
    decodeNodeMsgD f (encodeNodeMsg n) = some n := by
  cases n with
  | dir entries =>
    have hf1 : 1 + entryListSize entries ≤ f := hf
    obtain ⟨g, rfl⟩ : ∃ g, f = g + 1 := ⟨f - 1, by omega⟩
    show decodeNodeMsgD (g + 1) (encLenField 1 (encodeEntryList entries)) = _
    rw [decodeNodeMsgD, (ParsesTo.lenField 1 (encodeEntryList entries)).parseFields]
    simp only [Option.some_bind']
    rw [decodeNodeTokens, decodeDirPayload,
      (parsesTo_encodeEntryList entries).parseFields]
    simp only [Option.some_bind']
    rw [decodeDir_roundtrip entries g [] (by omega)]
    simp [decodeNodeTokens]
  | value v =>
    have hf1 : 1 ≤ f := by
      simp [nodeSize] at hf
      omega
    obtain ⟨g, rfl⟩ : ∃ g, f = g + 1 := ⟨f - 1, by omega⟩
    show decodeNodeMsgD (g + 1) (encLenField 2 (encodeValueMsg v)) = _
    rw [decodeNodeMsgD, (ParsesTo.lenField 2 (encodeValueMsg v)).parseFields]
    simp only [Option.some_bind']
    rw [decodeNodeTokens, decodeValueMsgD_encode]
    simp [decodeNodeTokens]
  | unevaluated =>
    have hf1 : 1 ≤ f := by
      simp [nodeSize] at hf
      omega
    obtain ⟨g, rfl⟩ : ∃ g, f = g + 1 := ⟨f - 1, by omega⟩
    show decodeNodeMsgD (g + 1) (encLenField 3 []) = _
    rw [decodeNodeMsgD, (ParsesTo.lenField 3 []).parseFields]
    simp only [Option.some_bind']
    rw [decodeNodeTokens, parseFields_nil]
    simp [decodeNodeTokens]
  | failed e =>
    have hf1 : 1 ≤ f := by
      simp [nodeSize] at hf
      omega
    obtain ⟨g, rfl⟩ : ∃ g, f = g + 1 := ⟨f - 1, by omega⟩
    show decodeNodeMsgD (g + 1) (encLenField 4 (encodeIErrMsg e)) = _
    rw [decodeNodeMsgD, (ParsesTo.lenField 4 (encodeIErrMsg e)).parseFields]
    simp only [Option.some_bind']
    rw [decodeNodeTokens, decodeIErrMsgD_encode]
    simp [decodeNodeTokens]
  termination_by sizeOf n

/-- The repeated entries of a directory payload decode onto any
accumulator by concatenation. -/
theorem decodeDir_roundtrip (l : List IEntry) (f : Nat) (acc : List IEntry)
    (hf : entryListSize l ≤ f) :
    decodeDirTokens f acc (l.map fun e => (1, WireVal.lenDelim (encodeEntryMsg e))) =
      some (acc ++ l) := by
  cases l with
  | nil => simp [decodeDirTokens]
  | cons e t =>
    have hsz : entrySize e + entryListSize t ≤ f := hf
    simp only [List.map_cons]
    rw [decodeDirTokens, decodeEntry_roundtrip e f (by omega)]
    simp only [Option.some_bind']
    rw [decodeDir_roundtrip t f (acc ++ [e]) (by omega)]
    simp
  termination_by sizeOf l

/-- The mesh entry round trip within a sufficient nesting budget. -/
theorem decodeEntry_roundtrip (e : IEntry) (f : Nat) (hf : entrySize e ≤ f) :
    decodeEntryMsgD f (encodeEntryMsg e) = some e := by
  cases e with
  | mk name nd sens =>
    have hnd : nodeSize nd ≤ f := hf
    have hp : ParsesTo (encodeEntryMsg (IEntry.mk name nd sens))
        ((if name = "" then []
          else [(1, WireVal.lenDelim (encodeStringPayload name))]) ++
          [(2, WireVal.lenDelim (encodeNodeMsg nd))] ++
          (match sens with
            | none => []
            | some sl => [(3, WireVal.varint (sensDisc sl))])) := by
      refine ParsesTo.append (ParsesTo.append ?_ (ParsesTo.lenField 2 _)) ?_
      · exact ParsesTo.ite ParsesTo.nil (ParsesTo.lenField 1 _)
      · cases sens with
        | none => exact ParsesTo.nil
        | some sl => exact ParsesTo.varintField 3 (sensDisc sl)
    rw [decodeEntryMsgD, hp.parseFields]
    simp only [Option.some_bind']
    by_cases hname : name = "" <;> cases sens with
    | _ =>
      first
      | (subst hname
         simp [hname, decodeEntryTokens, decodeString_encode,
           decodeNode_roundtrip nd f hnd, sensOfNat?_sensDisc])
      | simp [hname, decodeEntryTokens, decodeString_encode,
          decodeNode_roundtrip nd f hnd, sensOfNat?_sensDisc]
  termination_by sizeOf e

end

mutual

/-- The prost node round trip within a sufficient nesting budget, the
unset oneof included. -/
theorem decodePNode_roundtrip (p : PNode) (f : Nat) (hf : pnodeSize p ≤ f) :
    decodePNodeMsgD f (encodePNodeMsg p) = some p := by
  cases p with
  | mk kind =>
    cases kind with
    | none =>
      have hf1 : 1 ≤ f := by
        simp [pnodeSize] at hf
        omega
      obtain ⟨g, rfl⟩ : ∃ g, f = g + 1 := ⟨f - 1, by omega⟩
      show decodePNodeMsgD (g + 1) [] = _
      rw [decodePNodeMsgD, parseFields_nil]
      simp only [Option.some_bind']
      rw [decodePNodeTokens]
      rfl
    | some k =>
      cases k with
      | dir entries =>
        have hf1 : 1 + pentryListSize entries ≤ f := hf
        obtain ⟨g, rfl⟩ : ∃ g, f = g + 1 := ⟨f - 1, by omega⟩
        show decodePNodeMsgD (g + 1) (encLenField 1 (encodePEntryList entries)) = _
        rw [decodePNodeMsgD,
          (ParsesTo.lenField 1 (encodePEntryList entries)).parseFields]
        simp only [Option.some_bind']
        rw [decodePNodeTokens, decodePDirPayload,
          (parsesTo_encodePEntryList entries).parseFields]
        simp only [Option.some_bind']
        rw [decodePDir_roundtrip entries g [] (by omega)]
        simp [decodePNodeTokens]
      | value vk =>
        have hf1 : 1 ≤ f := by
          simp [pnodeSize] at hf
          omega
        obtain ⟨g, rfl⟩ : ∃ g, f = g + 1 := ⟨f - 1, by omega⟩
        show decodePNodeMsgD (g + 1) (encLenField 2 (encodePValueMsg vk)) = _
        rw [decodePNodeMsgD,
          (ParsesTo.lenField 2 (encodePValueMsg vk)).parseFields]
        simp only [Option.some_bind']
        rw [decodePNodeTokens, decodePValueMsgD_encode]
        simp [decodePNodeTokens]
      | unevaluated =>
        have hf1 : 1 ≤ f := by
          simp [pnodeSize] at hf
          omega
        obtain ⟨g, rfl⟩ : ∃ g, f = g + 1 := ⟨f - 1, by omega⟩
        show decodePNodeMsgD (g + 1) (encLenField 3 []) = _
        rw [decodePNodeMsgD, (ParsesTo.lenField 3 []).parseFields]
        simp only [Option.some_bind']
        rw [decodePNodeTokens, parseFields_nil]
        simp [decodePNodeTokens]
      | failed ek =>
        have hf1 : 1 ≤ f := by
          simp [pnodeSize] at hf
          omega
        obtain ⟨g, rfl⟩ : ∃ g, f = g + 1 := ⟨f - 1, by omega⟩
        show decodePNodeMsgD (g + 1) (encLenField 4 (encodePErrMsg ek)) = _
        rw [decodePNodeMsgD,
          (ParsesTo.lenField 4 (encodePErrMsg ek)).parseFields]
        simp only [Option.some_bind']
        rw [decodePNodeTokens, decodePErrMsgD_encode]
        simp [decodePNodeTokens]
  termination_by sizeOf p

theorem decodePDir_roundtrip (l : List PEntry) (f : Nat) (acc : List PEntry)
    (hf : pentryListSize l ≤ f) :
    decodePDirTokens f acc
        (l.map fun e => (1, WireVal.lenDelim (encodePEntryMsg e))) =
      some (acc ++ l) := by
  cases l with
  | nil => simp [decodePDirTokens]
  | cons e t =>
    have hsz : pentrySize e + pentryListSize t ≤ f := hf
    simp only [List.map_cons]
    rw [decodePDirTokens, decodePEntry_roundtrip e f (by omega)]
    simp only [Option.some_bind']
    rw [decodePDir_roundtrip t f (acc ++ [e]) (by omega)]
    simp
  termination_by sizeOf l

theorem decodePEntry_roundtrip (e : PEntry) (f : Nat) (hf : pentrySize e ≤ f) :
    decodePEntryMsgD f (encodePEntryMsg e) = some e := by
  cases e with
  | mk name nd sens => ?_
  have hnd2 : ∀ n, nd = some n → pnodeSize n ≤ f := by
    intro n h
    subst h
    simpa [pentrySize] using hf
  clear hf
  have henc : encodePEntryMsg (PEntry.mk name nd sens) =
      (if name = "" then [] else encLenField 1 (encodeStringPayload name)) ++
        (nd.elim [] (fun n => encLenField 2 (encodePNodeMsg n)) ++
          sens.elim [] (fun sl => encVarintField 3 (sensDisc sl))) := by
    cases nd <;> cases sens <;>
      simp [encodePEntryMsg, Option.elim, List.append_assoc]
  have hp : ParsesTo
      ((if name = "" then [] else encLenField 1 (encodeStringPayload name)) ++
        (nd.elim [] (fun n => encLenField 2 (encodePNodeMsg n)) ++
          sens.elim [] (fun sl => encVarintField 3 (sensDisc sl))))
      ((if name = "" then []
        else [(1, WireVal.lenDelim (encodeStringPayload name))]) ++
        (nd.elim [] (fun n => [(2, WireVal.lenDelim (encodePNodeMsg n))]) ++
          sens.elim [] (fun sl => [(3, WireVal.varint (sensDisc sl))]))) := by
    refine ParsesTo.append ?_ (ParsesTo.append ?_ ?_)
    · exact ParsesTo.ite ParsesTo.nil (ParsesTo.lenField 1 _)
    · cases nd with
      | none => exact ParsesTo.nil
      | some n => exact ParsesTo.lenField 2 _
    · cases sens with
      | none => exact ParsesTo.nil
      | some sl => exact ParsesTo.varintField 3 (sensDisc sl)
  rw [decodePEntryMsgD, henc, hp.parseFields]
  simp only [Option.some_bind']
  cases nd with
  | none =>
    by_cases hname : name = "" <;> cases sens with
    | _ =>
      simp [hname, Option.elim, decodePEntryTokens, decodeString_encode,
        sensOfNat?_sensDisc]
  | some n =>
    by_cases hname : name = "" <;> cases sens with
    | _ =>
      simp [hname, Option.elim, decodePEntryTokens, decodeString_encode,
        decodePNode_roundtrip n f (hnd2 n rfl), sensOfNat?_sensDisc]
  termination_by sizeOf e

end

/-- Modelled from the spec: decodes the fields of an `InspectResponse2`
message (field 1: the node, required). -/
def decodeR2Tokens : Nat → Option INode → List (Nat × WireVal) →
    Option (Option INode)
  | _, acc, [] => some acc
  | f, _, (1, WireVal.lenDelim pb) :: ts =>
    (decodeNodeMsgD f pb).bind fun n => decodeR2Tokens f (some n) ts
  | _, _, (1, _) :: _ => none
  | f, acc, _ :: ts => decodeR2Tokens f acc ts

/-- Modelled from the spec: decodes an `InspectResponse2` message. -/
def decodeInspectResponse2D (f : Nat) (l : List Nat) : Option InspectResponse2 :=
  ((parseFields l).bind (decodeR2Tokens f none)).bind fun o =>
    o.map InspectResponse2.mk

/-- Modelled from the spec: decodes the fields of a prost
`InspectResponse` message (field 1: optional node). -/
def decodeRTokens : Nat → Option PNode → List (Nat × WireVal) →
    Option (Option PNode)
  | _, acc, [] => some acc
  | f, _, (1, WireVal.lenDelim pb) :: ts =>
    (decodePNodeMsgD f pb).bind fun n => decodeRTokens f (some n) ts
  | _, _, (1, _) :: _ => none
  | f, acc, _ :: ts => decodeRTokens f acc ts

/-- Modelled from the spec: decodes a prost `InspectResponse` message. -/
def decodeInspectResponseD (f : Nat) (l : List Nat) : Option InspectResponse :=
  ((parseFields l).bind (decodeRTokens f none)).map InspectResponse.mk

/-- C9: the structural `InspectResponse2` and the protobuf-direct
`InspectResponse` have equivalent encodings: a structural response and
its protobuf-direct image produce identical wire bytes; encoding the
structural response and decoding as the protobuf-direct representation
succeeds and yields the image; re-encoding that image and decoding back
as the structural representation yields a value equal to the original;
and every protobuf-direct response whose node fits the nesting budget
round-trips through its own encoding. -/
theorem inspect_encodings_equivalent (r2 : InspectResponse2) (f : Nat)
    (hf : nodeSize r2.result ≤ f) :
    encodeInspectResponse ⟨some (toPNode r2.result)⟩ = encodeInspectResponse2 r2 ∧
      decodeInspectResponseD f (encodeInspectResponse2 r2) =
        some ⟨some (toPNode r2.result)⟩ ∧
      decodeInspectResponse2D f
          (encodeInspectResponse ⟨some (toPNode r2.result)⟩) = some r2 ∧
      ∀ r : InspectResponse, (∀ p, r.result = some p → pnodeSize p ≤ f) →
        decodeInspectResponseD f (encodeInspectResponse r) = some r := by
  obtain ⟨n⟩ := r2
  have hpf : pnodeSize (toPNode n) ≤ f := by
    rw [pnodeSize_toPNode]
    exact hf
  refine ⟨?_, ?_, ?_, ?_⟩
  · show encLenField 1 (encodePNodeMsg (toPNode n)) = encLenField 1 (encodeNodeMsg n)
    rw [encodePNodeMsg_toPNode]
  · show decodeInspectResponseD f (encLenField 1 (encodeNodeMsg n)) = _
    unfold decodeInspectResponseD
    rw [(ParsesTo.lenField 1 (encodeNodeMsg n)).parseFields]
    simp only [Option.some_bind']
    rw [decodeRTokens, ← encodePNodeMsg_toPNode n,
      decodePNode_roundtrip (toPNode n) f hpf]
    simp [decodeRTokens]
  · show decodeInspectResponse2D f (encLenField 1 (encodePNodeMsg (toPNode n))) = _
    unfold decodeInspectResponse2D
    rw [(ParsesTo.lenField 1 (encodePNodeMsg (toPNode n))).parseFields]
    simp only [Option.some_bind']
    rw [decodeR2Tokens, encodePNodeMsg_toPNode n, decodeNode_roundtrip n f hf]
    simp [decodeR2Tokens]
  · intro r hr
    obtain ⟨result⟩ := r
    cases result with
    | none =>
      show decodeInspectResponseD f [] = _
      unfold decodeInspectResponseD
      rw [parseFields_nil]
      rfl
    | some p =>
      show decodeInspectResponseD f (encLenField 1 (encodePNodeMsg p)) = _
      unfold decodeInspectResponseD
      rw [(ParsesTo.lenField 1 (encodePNodeMsg p)).parseFields]
      simp only [Option.some_bind']
      rw [decodeRTokens, decodePNode_roundtrip p f (hr p rfl)]
      simp [decodeRTokens]

/-- Witness for C9 at a concrete response. -/
theorem inspect_encodings_equivalent_witness :
    decodeInspectResponse2D 1
        (encodeInspectResponse ⟨some (toPNode INode.unevaluated)⟩) =
      some ⟨INode.unevaluated⟩ ∧
    decodeInspectResponseD 1 (encodeInspectResponse ⟨none⟩) = some ⟨none⟩ :=
  ⟨(inspect_encodings_equivalent ⟨INode.unevaluated⟩ 1
      (by simp [nodeSize])).2.2.1,
    (inspect_encodings_equivalent ⟨INode.unevaluated⟩ 1
      (by simp [nodeSize])).2.2.2 ⟨none⟩
      (fun p hp => Option.noConfusion hp)⟩

end Mesh
